import Mathlib

/-!
Verification of the WorldGen terrain-generation pipeline.

This file is a shallow embedding, in Lean 4, of the parts of the WorldGen
repository that the verified properties talk about:

* `crates/worldgen/src/heightmap.rs` — the height-map builder: Planchon–Darboux
  depression filling, steepest-descent vectors, the descending-elevation vertex
  order, per-cell corner averages;
* `crates/polymap/src/compute.rs` — the generic per-vertex/per-edge/per-cell
  field containers (`ordered_by`, `flow`, `update_with_neighbors`, …);
* `crates/worldgen/src/hydrology.rs` — flux accumulation, per-edge flux, river
  flags, river paths;
* `crates/worldgen/src/thermology.rs` — temperature derivation;
* `crates/worldgen/src/lib.rs` — the `WorldGenerator::generate` pipeline and the
  `TerrainType` threshold table;
* `crates/worldgen/src/generators.rs` — scalar field generators and the
  `GridGenerator` trait (`add_field`, `normalize`, `relax`);
* `crates/polymap/src/field.rs` — `Field::normalize`;
* `crates/world/src/biome.rs` and `crates/world/src/measure.rs` — ground and
  vegetation composition.

Modelling conventions:

* `f64` values are modelled as exact rationals `ℚ`.  All arithmetic appearing in
  the modelled code paths is (field) arithmetic on decimal constants, so the
  rational model agrees with the real-number reading of the code.  Where the
  *finiteness* of an IEEE result matters (division by zero producing NaN/∞) a
  separate `Option ℚ`-valued model is used and documented at its definition.
* The kernel cannot reduce the arithmetic of Lean's built-in `Rat` operations
  (they are `irreducible`), so the embedding uses its own reducible rational
  operations `qAdd`, `qSub`, … defined through `mkRat`.  The bridge lemmas
  `qAdd_eq`, `qSub_eq`, … prove that they are exactly `ℚ`'s `+`, `-`, …, and
  all symbolic proofs immediately rewrite with them; concrete witnesses can
  instead be evaluated by `decide`.
* Rust vectors indexed by dense ids become Lean functions `ℕ → _` (or lists);
  mutation becomes explicit state passing.  The `while changed` loop of the
  depression-filling algorithm becomes a fuel-indexed iteration whose boolean
  result records whether the loop exited because a full sweep made no change
  (which is exactly the exit condition of the Rust loop).
* The mesh itself is produced by external crates (Poisson sampling + Voronoi);
  it enters the embedding as an abstract `Mesh` record of adjacency data, and
  theorems assume only the well-formedness facts they need (stated explicitly).
-/

set_option maxRecDepth 16000

namespace WorldGen

/-! ## Reducible rational arithmetic

Kernel-reducible models of the `f64` operations used by the code.  Each is
proved equal to the corresponding `ℚ` operation in the theorem section below
(`qAdd_eq` …), so these are *the* rational operations, merely re-packaged so
that `decide` can evaluate them.
-/

/-- Reducible rational addition (`a + b`). -/
def qAdd (a b : ℚ) : ℚ := mkRat (a.num * b.den + b.num * a.den) (a.den * b.den)

/-- Reducible rational subtraction (`a - b`). -/
def qSub (a b : ℚ) : ℚ := mkRat (a.num * b.den - b.num * a.den) (a.den * b.den)

/-- Reducible rational multiplication (`a * b`). -/
def qMul (a b : ℚ) : ℚ := mkRat (a.num * b.num) (a.den * b.den)

/-- Reducible rational negation (`-a`). -/
def qNeg (a : ℚ) : ℚ := mkRat (-a.num) a.den

/-- Reducible rational division (`a / b`; `a / 0 = 0` in `ℚ`; the separate
`Option`-valued model `qDivF` tracks the places where IEEE division would
produce a non-finite value). -/
def qDiv (a b : ℚ) : ℚ :=
  if b.num < 0 then mkRat (-(a.num * b.den)) ((a.den : ℤ) * b.num).natAbs
  else mkRat (a.num * b.den) ((a.den : ℤ) * b.num).natAbs

/-- Reducible rational absolute value (`|a|`). -/
def qAbs (a : ℚ) : ℚ := mkRat (a.num.natAbs : ℤ) a.den

/-- Reducible test `a < b`. -/
def qLtB (a b : ℚ) : Bool := a.num * b.den < b.num * a.den

/-- Reducible test `a ≤ b`. -/
def qLeB (a b : ℚ) : Bool := a.num * b.den ≤ b.num * a.den

/-- Reducible test `a = b` (rationals are stored normalized). -/
def qEqB (a b : ℚ) : Bool := a.num = b.num && a.den = b.den

/-- Reducible `f64::min`. -/
def qMin (a b : ℚ) : ℚ := if qLeB a b then a else b

/-- Reducible `f64::max`. -/
def qMax (a b : ℚ) : ℚ := if qLeB a b then b else a

/-- Reducible sum of a list of rationals. -/
def qSum : List ℚ → ℚ
  | [] => 0
  | a :: l => qAdd a (qSum l)

/-! ## Terrain classification (`crates/worldgen/src/lib.rs`, `TerrainType`)

The Rust code panics when `idx_from_height`'s linear search fails
(`.unwrap()`), and `from_height_range` performs the `usize` subtraction
`high_idx - 1`, which is an arithmetic underflow when `high_idx = 0` (a panic
under Rust's checked/debug-assertion semantics, which is what this embedding
models — comments at `from_height_range`).  Fallible paths return `none`.
-/

/-- The five terrain categories of `enum TerrainType`. -/
inductive TerrainType
  | DeepWater
  | Water
  | Land
  | Hill
  | Mountain
deriving DecidableEq, Repr, Inhabited

/-- Model of `TerrainType::is_water`. -/
def TerrainType.is_water : TerrainType → Bool
  | .Water => true
  | .DeepWater => true
  | _ => false

/-- Model of `TerrainType::LEVELS`: `[(DeepWater, 0.0), (Water, 0.5),
(Land, 0.5), (Hill, 0.75), (Mountain, 1.00001)]`. -/
def levels : List (TerrainType × ℚ) :=
  [(.DeepWater, 0), (.Water, mkRat 1 2), (.Land, mkRat 1 2),
   (.Hill, mkRat 3 4), (.Mountain, mkRat 100001 100000)]

/-- Model of `TerrainType::idx_from_height` before the final `.unwrap()`:
index of the first level whose threshold strictly exceeds `height`. -/
def idx_from_height (height : ℚ) : Option ℕ :=
  levels.findIdx? (fun p => qLtB height p.2)

/-- Model of `TerrainType::from_height`; `none` models the `unwrap` panic. -/
def from_height (height : ℚ) : Option TerrainType :=
  (idx_from_height height).map (fun i => (levels.getD i default).1)

/-- Total wrapper for `from_height` used inside the generation pipeline, where
the claims under study do not concern the panic case (claim C10 does, and uses
`from_height` itself). -/
def from_height_total (height : ℚ) : TerrainType :=
  (from_height height).getD .Mountain

/-- Model of `TerrainType::from_height_range`.  `none` models a panic: either
the `unwrap` inside `idx_from_height`, or the `usize` underflow of
`high_idx - 1` when `high_idx = 0` (checked-arithmetic semantics; in a release
build the wrapped index would fall through `.get(..).unwrap_or(LEVELS[0])`). -/
def from_height_range (height : ℚ) : Option (TerrainType × TerrainType × ℚ) :=
  match idx_from_height height with
  | none => none
  | some 0 => none
  | some (hi + 1) =>
    let low := levels.getD hi default
    let high := levels.getD (hi + 1) default
    let t :=
      if low.1.is_water ≠ high.1.is_water then (1 : ℚ)
      else if qEqB (qSub high.2 low.2) 0 then (1 : ℚ)
      else qDiv (qSub height low.2) (qSub high.2 low.2)
    some (low.1, high.1, t)

/-! ## Ground and vegetation composition (`crates/world/src/biome.rs`,
`crates/world/src/measure.rs`) -/

/-- The three terrain categories of the `world` crate (`enum TerrainCategory`). -/
inductive TerrainCategory
  | Sea
  | Coast
  | Land
deriving DecidableEq, Repr

/-- Model of `measure::RAIN.normalize(x) = (x - 0.0)/(50.0 - 0.0)`. -/
def rain_normalize (x : ℚ) : ℚ := qDiv (qSub x 0) (qSub 50 0)

/-- Model of `measure::DRAIN.normalize(x) = (x - 0.0)/(1.0 - 0.0)`. -/
def drain_normalize (x : ℚ) : ℚ := qDiv (qSub x 0) (qSub 1 0)

/-- Model of `struct Ground` (water/sand/soil/rock fractions). -/
structure Ground where
  water : ℚ
  sand : ℚ
  soil : ℚ
  rock : ℚ
deriving DecidableEq, Repr

/-- Sum of the four components of a `Ground` composition. -/
def Ground.total (g : Ground) : ℚ := qAdd g.water (qAdd g.sand (qAdd g.soil g.rock))

/-- Model of `Ground::normalize`: divide by the total, or return the
composition unchanged when the total is `0`. -/
def Ground.normalize (g : Ground) : Ground :=
  if qEqB g.total 0 then g
  else
    { water := qDiv g.water g.total
      sand := qDiv g.sand g.total
      soil := qDiv g.soil g.total
      rock := qDiv g.rock g.total }

/-- Model of the unnormalized composition built by the non-`Sea` branch of
`Ground::new`. -/
def ground_pre (rain drain height : ℚ) : Ground :=
  let wetness := qAdd (qMin (drain_normalize drain) 1) (rain_normalize rain)
  { water := 0
    sand := qMul (qMul (mkRat 1 5) (qMax (qSub 1 wetness) 0)) (qMax (qSub 1 height) 0)
    soil := wetness
    rock := qMul (mkRat 1 5) height }

/-- Model of `Ground::new`. -/
def Ground.new (tc : TerrainCategory) (rain drain height : ℚ) : Ground :=
  if tc = .Sea then { water := 1, sand := 0, soil := 0, rock := 0 }
  else (ground_pre rain drain height).normalize

/-- Model of `struct Vegetation` (none/deciduous/boreal fractions). -/
structure Vegetation where
  none_ : ℚ
  deciduous : ℚ
  boreal : ℚ
deriving DecidableEq, Repr

/-- Sum of the three components of a `Vegetation` composition. -/
def Vegetation.total (v : Vegetation) : ℚ := qAdd v.none_ (qAdd v.deciduous v.boreal)

/-- Model of `Vegetation::normalize` (same zero-total rule as `Ground`). -/
def Vegetation.normalize (v : Vegetation) : Vegetation :=
  if qEqB v.total 0 then v
  else
    { none_ := qDiv v.none_ v.total
      deciduous := qDiv v.deciduous v.total
      boreal := qDiv v.boreal v.total }

/-- Model of the unnormalized composition built by the non-`Sea` branch of
`Vegetation::new`. -/
def vegetation_pre (rain temperature height : ℚ) : Vegetation :=
  { none_ := qMax (qSub 1 (rain_normalize rain)) 0
    deciduous :=
      if qLtB (mkRat 4 5) height then 0
      else qMul 10 (qSub (mkRat 3 10) (qMin (qAbs (qSub (mkRat 1 2) temperature)) (mkRat 3 10)))
    boreal :=
      if qLtB (mkRat 9 10) height then 0
      else qMul 10 (qSub (mkRat 3 10) (qMul (qMin (qAbs (qSub (mkRat 1 5) temperature)) (mkRat 3 10)) height)) }

/-- Model of `Vegetation::new` (`Vegetation::default` is `{1, 0, 0}`). -/
def Vegetation.new (tc : TerrainCategory) (rain temperature height : ℚ) : Vegetation :=
  match tc with
  | .Sea => { none_ := 1, deciduous := 0, boreal := 0 }
  | _ => (vegetation_pre rain temperature height).normalize

/-! ## Field normalization (`GridGenerator::normalize` in
`crates/worldgen/src/generators.rs`, `HeightMapBuilder::normalize` in
`crates/worldgen/src/heightmap.rs`, and `Field::normalize` in
`crates/polymap/src/field.rs`)

Two models of the same `(x - min) / (max - min)` formula are used:

* `grid_normalize` keeps exact rational values; it is adequate on the domain
  where the IEEE division is finite (`max ≠ min`), which is the domain of the
  range theorem for claim C5;
* `grid_normalizeF` / `field_normalizeF` return `Option ℚ` per element, with
  `none` for a value that IEEE `f64` arithmetic would make non-finite
  (here `0.0/0.0 = NaN` when the field has no variance), which is what claim
  C8 is about.
-/

/-- Model of `iter().copied().reduce(f64::min)`. -/
def listMinQ : List ℚ → Option ℚ
  | [] => none
  | a :: l => some (l.foldl qMin a)

/-- Model of `iter().copied().reduce(f64::max)`. -/
def listMaxQ : List ℚ → Option ℚ
  | [] => none
  | a :: l => some (l.foldl qMax a)

/-- IEEE-aware division: `none` models a non-finite `f64` result (division by
zero). -/
def qDivF (a b : ℚ) : Option ℚ := if qEqB b 0 then none else some (qDiv a b)

/-- Exact-value model of `GridGenerator::normalize` (and of the identical
`HeightMapBuilder::normalize`): `none` models the panic of
`reduce(..).unwrap()` on an empty grid. -/
def grid_normalize (l : List ℚ) : Option (List ℚ) :=
  match listMinQ l, listMaxQ l with
  | some mn, some mx => some (l.map (fun x => qDiv (qSub x mn) (qSub mx mn)))
  | _, _ => none

/-- Finiteness-aware model of `GridGenerator::normalize`: per-element `none`
models a non-finite `f64` value entering the field. -/
def grid_normalizeF (l : List ℚ) : Option (List (Option ℚ)) :=
  match listMinQ l, listMaxQ l with
  | some mn, some mx => some (l.map (fun x => qDivF (qSub x mn) (qSub mx mn)))
  | _, _ => none

/-- The value of `f64::MAX`, as an exact rational: the integer
`2^1024 - 2^971`, written out as a literal so that the kernel can work with it
directly. -/
def f64max : ℚ := mkRat 179769313486231570814527423731704356798070567525844996598917476803157260780028538760589558632766878171540458953514382464234321326889464182768467546703537516986049910576551282076245490090389328944075868508455133942304583236903222948165808559332123348274797826204144723168738177180919299881250404026184124858368 1

/-- Finiteness-aware model of `Field::normalize`, which folds `min`/`max`
starting from the sentinels `f64::MAX` / `f64::MIN` instead of unwrapping a
`reduce` (so an empty field does not panic). -/
def field_normalizeF (l : List ℚ) : List (Option ℚ) :=
  let mn := l.foldl qMin f64max
  let mx := l.foldl qMax (qNeg f64max)
  l.map (fun x => qDivF (qSub x mn) (qSub mx mn))

/-! ## The mesh (`crates/polymap/src/lib.rs`)

The mesh is built by external crates (Poisson-disk sampling + Voronoi) and is
immutable afterwards; the embedding abstracts it as a record of its adjacency
data, using dense `ℕ` ids exactly as the Rust `VertexId`/`EdgeId`/`CellId`
newtypes do.  (The `worldgen` crate of this snapshot calls vertices "corners";
both name the same entity.)  Out-of-range lookups default to harmless values;
the theorems that need in-range guarantees state them as explicit
well-formedness hypotheses. -/

/-- Abstract mesh record: vertex/edge/cell counts and adjacency data. -/
structure Mesh where
  numVerts : ℕ
  vertNbrs : ℕ → List ℕ
  vertBorder : ℕ → Bool
  vertCoords : ℕ → ℚ × ℚ
  vertEdges : ℕ → List ℕ
  numEdges : ℕ
  edgeStart : ℕ → ℕ
  edgeEnd : ℕ → ℕ
  edgeCells : ℕ → List ℕ
  numCells : ℕ
  cellCorners : ℕ → List ℕ
  width : ℚ
  height : ℚ

/-- Well-formedness: every listed vertex neighbor is a valid vertex id.  (This
is guaranteed by mesh construction; it is all the height-map theorems need.) -/
def Mesh.nbrsValid (M : Mesh) : Prop :=
  ∀ id, ∀ nb ∈ M.vertNbrs id, nb < M.numVerts

/-! ## Height map (`crates/worldgen/src/heightmap.rs`)

`HeightMapBuilder::planchon_darboux` is the iterative depression-filling
relaxation: a working field `new_h` starts at the true height on border
vertices and at the sentinel `100.0` elsewhere, and is swept (in vertex-id
order, reading already-updated values, exactly like the Rust in-place loop)
until a full sweep changes nothing.  The sweep of one vertex walks its
neighbor list: if some neighbor's working value is at least `epsilon` below
the vertex's true height, the vertex is released to its true height (and the
walk `break`s); otherwise, if `neighbor + epsilon` lies strictly between the
current working value and the true height, the working value is lowered to it
and the walk continues.  The `while changed` loop becomes fuel-indexed
iteration; `pd_loop` additionally returns whether the loop exited because a
sweep made no change (the Rust loop's exit condition). -/

/-- The epsilon of `planchon_darboux` as called by `build` (`0.001`). -/
def pdEps : ℚ := mkRat 1 1000

/-- Pointwise update of a `ℕ → ℚ` state (a `Vec` store `new_h[id] = v`). -/
def updW (w : ℕ → ℚ) (id : ℕ) (v : ℚ) : ℕ → ℚ :=
  fun x => if x = id then v else w x

/-- Model of the initial working field: true height on the border, the
sentinel `100.0` elsewhere. -/
def pd_init (M : Mesh) (h : ℕ → ℚ) : ℕ → ℚ :=
  fun id => if M.vertBorder id then h id else 100

/-- One vertex's inner neighbor walk of the Planchon–Darboux sweep.  Returns
the updated state and whether any assignment happened. -/
def pd_go (h : ℕ → ℚ) (id : ℕ) : (ℕ → ℚ) → List ℕ → (ℕ → ℚ) × Bool
  | w, [] => (w, false)
  | w, nb :: rest =>
    if qLeB (qAdd (w nb) pdEps) (h id) then (updW w id (h id), true)
    else if qLtB (qAdd (w nb) pdEps) (w id) && qLtB (h id) (qAdd (w nb) pdEps) then
      let p := pd_go h id (updW w id (qAdd (w nb) pdEps)) rest
      (p.1, true)
    else pd_go h id w rest

/-- One full sweep over a list of vertex ids (the Rust `for (id, corner)`
loop); vertices whose working value equals their true height are skipped. -/
def pd_sweep (M : Mesh) (h : ℕ → ℚ) : (ℕ → ℚ) → List ℕ → (ℕ → ℚ) × Bool
  | w, [] => (w, false)
  | w, id :: rest =>
    if qEqB (w id) (h id) then pd_sweep M h w rest
    else
      let p := pd_go h id w (M.vertNbrs id)
      let q := pd_sweep M h p.1 rest
      (q.1, p.2 || q.2)

/-- Fuel-indexed model of the `while changed` loop.  The boolean is `true`
exactly when the loop exited because a full sweep made no change, i.e. when
the Rust loop would have terminated within the given fuel. -/
def pd_loop (M : Mesh) (h : ℕ → ℚ) : ℕ → (ℕ → ℚ) → (ℕ → ℚ) × Bool
  | 0, w => (w, false)
  | fuel + 1, w =>
    let p := pd_sweep M h w (List.range M.numVerts)
    if p.2 then pd_loop M h fuel p.1 else (p.1, true)

/-- Model of `HeightMapBuilder::planchon_darboux` (with fuel). -/
def planchon_darboux (M : Mesh) (fuel : ℕ) (h : ℕ → ℚ) : ℕ → ℚ :=
  (pd_loop M h fuel (pd_init M h)).1

/-- Whether the depression-filling loop reached its fixed point within the
given fuel (i.e. whether the Rust `while changed` loop would have exited). -/
def pd_fixed (M : Mesh) (fuel : ℕ) (h : ℕ → ℚ) : Bool :=
  (pd_loop M h fuel (pd_init M h)).2

/-- Invariant of the depression-filling iteration (reachability facts about
any state `w` the loop can be in, given true heights `h`): border vertices
hold their true height; the working value never drops below the true height;
an interior vertex that was ever lowered from the sentinel (`w id ≠ 100`) but
is not released keeps a neighbor at least `epsilon` below it; and a released
interior vertex (`w id = h id`) likewise keeps such a neighbor (the one that
triggered its release — neighbor values only decrease afterwards). -/
def pd_inv (M : Mesh) (h w : ℕ → ℚ) : Prop :=
  (∀ id, M.vertBorder id = true → w id = h id) ∧
  (∀ id, h id ≤ w id) ∧
  (∀ id, M.vertBorder id = false → w id ≠ h id → w id ≠ 100 →
    ∃ nb ∈ M.vertNbrs id, w nb + pdEps ≤ w id) ∧
  (∀ id, M.vertBorder id = false → w id = h id →
    ∃ nb ∈ M.vertNbrs id, w nb + pdEps ≤ w id)

/-- The exit condition of the `while changed` loop: on every non-released
vertex, neither sweep rule can fire against any neighbor. -/
def pd_no_fire (M : Mesh) (h w : ℕ → ℚ) : Prop :=
  ∀ id, id < M.numVerts → w id ≠ h id →
    ∀ nb ∈ M.vertNbrs id,
      ¬ (w nb + pdEps ≤ h id) ∧ ¬ (w nb + pdEps < w id ∧ h id < w nb + pdEps)

/-- Model of `struct Slope`: the steepest-descent edge of a vertex. -/
structure Slope where
  towards : ℕ
  intensity : ℚ
deriving DecidableEq, Repr

/-- One step of the neighbor fold inside `build` that picks the steepest
strictly-descending neighbor: update when the drop is strictly positive and
(`update` in the Rust code) either no slope is recorded yet or the recorded
slope's intensity is strictly smaller. -/
def descent_step (w : ℕ → ℚ) (id : ℕ) : Option Slope → ℕ → Option Slope
  | none, nb =>
    if qLtB 0 (qSub (w id) (w nb)) then
      some { towards := nb, intensity := qSub (w id) (w nb) }
    else none
  | some s, nb =>
    if qLtB 0 (qSub (w id) (w nb)) && qLtB s.intensity (qSub (w id) (w nb)) then
      some { towards := nb, intensity := qSub (w id) (w nb) }
    else some s

/-- Model of the `descent_vector` computation of `HeightMapBuilder::build`:
the neighbor with the greatest strictly positive elevation drop, if any. -/
def descent_vector (M : Mesh) (w : ℕ → ℚ) (id : ℕ) : Option Slope :=
  (M.vertNbrs id).foldl (descent_step w id) none

/-- The comparator of `build`'s `ordered_by(descending)` together with
`ordered_by`'s id tie-break, as a total order: `u` sorts before `v` iff `u`'s
elevation is greater, or the elevations are equal and `u ≤ v`. -/
def downhill_le (w : ℕ → ℚ) (u v : ℕ) : Prop :=
  w v < w u ∨ (w u = w v ∧ u ≤ v)

instance downhill_le_dec (w : ℕ → ℚ) : DecidableRel (downhill_le w) := fun u v =>
  decidable_of_iff ((qLtB (w v) (w u) || (qEqB (w u) (w v) && decide (u ≤ v))) = true)
    (by
      rw [Bool.or_eq_true, Bool.and_eq_true, qLtB, qEqB, Bool.and_eq_true, decide_eq_true_iff,
        decide_eq_true_iff, decide_eq_true_iff, decide_eq_true_iff, ← Rat.lt_def]
      exact or_congr Iff.rfl (and_congr
        ⟨fun hp => Rat.ext hp.1 hp.2, fun hp => by rw [hp]; exact ⟨rfl, rfl⟩⟩ Iff.rfl))

instance downhill_le_total (w : ℕ → ℚ) : IsTotal ℕ (downhill_le w) where
  total := fun u v => by
    rcases lt_trichotomy (w u) (w v) with h | h | h
    · exact Or.inr (Or.inl h)
    · rcases Nat.le_total u v with huv | huv
      · exact Or.inl (Or.inr ⟨h, huv⟩)
      · exact Or.inr (Or.inr ⟨h.symm, huv⟩)
    · exact Or.inl (Or.inl h)

instance downhill_le_trans (w : ℕ → ℚ) : IsTrans ℕ (downhill_le w) where
  trans := fun a b c hab hbc => by
    rcases hab with hab | ⟨hab, hab2⟩
    · rcases hbc with hbc | ⟨hbc, _⟩
      · exact Or.inl (hbc.trans hab)
      · exact Or.inl (hbc ▸ hab)
    · rcases hbc with hbc | ⟨hbc, hbc2⟩
      · exact Or.inl (hab ▸ hbc)
      · exact Or.inr ⟨hab.trans hbc, hab2.trans hbc2⟩

/-- Model of `VertexData::ordered_by` (`crates/polymap/src/compute.rs`)
applied to the descending-elevation comparator: a stable sort of
`0, …, numVerts-1`.  (Rust's `sort_by` is a stable merge sort; because the id
tie-break makes the comparator antisymmetric, a list sorted by it is unique,
so any stable sort — here insertion sort, which the kernel can evaluate — is
an exact model.) -/
def ordered_by (M : Mesh) (w : ℕ → ℚ) : List ℕ :=
  (List.range M.numVerts).insertionSort (downhill_le w)

/-- Model of `CellData::corner_average`: the arithmetic mean of the cell's
corner values. -/
def corner_average (M : Mesh) (w : ℕ → ℚ) (cell : ℕ) : ℚ :=
  qDiv (qSum ((M.cellCorners cell).map w)) ((M.cellCorners cell).length : ℚ)

/-- Model of `struct HeightMap`: per-vertex (corner) elevation, per-cell
elevation, descent vectors and the descending-elevation vertex order. -/
structure HeightMap where
  corners : ℕ → ℚ
  cells : ℕ → ℚ
  descent : ℕ → Option Slope
  downhill : List ℕ

/-- Model of `HeightMapBuilder::build`: run depression filling (always, with
`epsilon = 0.001`), then derive descent vectors, per-cell averages and the
descending order from the filled elevations. -/
def build (M : Mesh) (fuel : ℕ) (h : ℕ → ℚ) : HeightMap :=
  let w := planchon_darboux M fuel h
  { corners := w
    cells := corner_average M w
    descent := descent_vector M w
    downhill := ordered_by M w }

/-- Model of `HeightMap::is_descent`. -/
def HeightMap.is_descent (hm : HeightMap) (top bottom : ℕ) : Bool :=
  match hm.descent top with
  | some s => s.towards = bottom
  | none => false

/-- Model of `HeightMap::downhill_flow`: the `(vertex, descent target)` pairs
in descending-elevation order. -/
def HeightMap.downhill_flow (hm : HeightMap) : List (ℕ × ℕ) :=
  hm.downhill.filterMap (fun u => (hm.descent u).map (fun s => (u, s.towards)))

/-- Model of `HeightMap::edge_high_corner`: the strictly higher endpoint of an
edge, if any. -/
def edge_high_corner (M : Mesh) (hm : HeightMap) (e : ℕ) : Option ℕ :=
  if qLtB (hm.corners (M.edgeEnd e)) (hm.corners (M.edgeStart e)) then some (M.edgeStart e)
  else if qLtB (hm.corners (M.edgeStart e)) (hm.corners (M.edgeEnd e)) then some (M.edgeEnd e)
  else none

/-- Model of the `DownhillPath` iterator (`HeightMap::downhill_path`): the
vertices visited while a descent vector exists; the iterator yields a vertex
only when that vertex has a descent vector.  Fuel-indexed (the callers pass
`numVerts + 1`, enough because elevations strictly decrease along descent
vectors). -/
def downhill_path_list (hm : HeightMap) : ℕ → ℕ → List ℕ
  | 0, _ => []
  | fuel + 1, id =>
    match hm.descent id with
    | none => []
    | some s => id :: downhill_path_list hm fuel s.towards

/-- One-step descent: the target of `id`'s descent vector, if any. -/
def HeightMap.stepD (hm : HeightMap) (id : ℕ) : Option ℕ :=
  (hm.descent id).map (fun s => s.towards)

/-- `k`-fold iteration of `stepD` (for stating that a descent chain reaches a
vertex). -/
def iterD (hm : HeightMap) : ℕ → ℕ → Option ℕ
  | 0, id => some id
  | k + 1, id =>
    match hm.stepD id with
    | none => none
    | some t => iterD hm k t

/-! ## Hydrology (`crates/worldgen/src/hydrology.rs`, and `VertexData::flow`
from `crates/polymap/src/compute.rs`) -/

/-- Model of `VertexData::flow`: for each `(from, to)` pair, in the given
order, perform `data[to] += data[from]` (the source value is read before the
write, exactly as the Rust code clones it first). -/
def flow_run (ps : List (ℕ × ℕ)) (f : ℕ → ℚ) : ℕ → ℚ :=
  ps.foldl (fun g p => updW g p.2 (qAdd (g p.2) (g p.1))) f

/-- Computed hydrology state (the derived fields of `struct Hydrology` and
`struct Rivers`). -/
structure Hydrology where
  cellRainfall : ℕ → ℚ
  cornerFlux : ℕ → ℚ
  edgeFlux : ℕ → ℚ
  edgeIsRiver : ℕ → Bool
  riverPaths : List (List ℕ)

/-- The river-flag computation of `Rivers::compute` (via
`EdgeData::from_cell_data`): an edge is a river segment iff no owning cell has
water-category terrain and the edge flux strictly exceeds the cutoff. -/
def edge_is_river (M : Mesh) (terrain : ℕ → TerrainType) (edgeFlux : ℕ → ℚ)
    (minRiverFlux : ℚ) (e : ℕ) : Bool :=
  !((M.edgeCells e).any (fun c => (terrain c).is_water)) && qLtB minRiverFlux (edgeFlux e)

/-- The river-source scan of `Rivers::compute`: the contents of the
`river_sources` hash set (as a duplicate-free list in edge-scan order; the
nondeterministic iteration order of the Rust `HashSet` is applied separately,
see `hydrology_recompute`'s `order` parameter). -/
def river_sources (M : Mesh) (hm : HeightMap) (isRiver : ℕ → Bool) : List ℕ :=
  (List.range M.numEdges).foldl
    (fun acc e =>
      if isRiver e then
        match edge_high_corner M hm e with
        | some top =>
          if (M.vertEdges top).all (fun o => o = e || !isRiver o) then
            if top ∈ acc then acc else acc ++ [top]
          else acc
        | none => acc
      else acc)
    []

/-- Model of `Hydrology::recompute` (plus the parts of `Rivers::compute` it
invokes).  `order` models the iteration order of the `river_sources : HashSet`
— an arbitrary function from the set's contents to the sequence the `for` loop
visits; everything except the order of `riverPaths` is independent of it. -/
def hydrology_recompute (M : Mesh) (hm : HeightMap) (rainfall : ℕ → ℚ)
    (terrain : ℕ → TerrainType) (minRiverFlux : ℚ) (order : List ℕ → List ℕ) : Hydrology :=
  let cornerFlux := flow_run hm.downhill_flow rainfall
  let edgeFlux := fun e =>
    qAdd (if hm.is_descent (M.edgeStart e) (M.edgeEnd e) then cornerFlux (M.edgeStart e) else 0)
      (if hm.is_descent (M.edgeEnd e) (M.edgeStart e) then cornerFlux (M.edgeEnd e) else 0)
  let isRiver := edge_is_river M terrain edgeFlux minRiverFlux
  { cellRainfall := corner_average M rainfall
    cornerFlux := cornerFlux
    edgeFlux := edgeFlux
    edgeIsRiver := isRiver
    riverPaths :=
      (order (river_sources M hm isRiver)).filterMap (fun source =>
        let path := (downhill_path_list hm (M.numVerts + 1) source).takeWhile
          (fun c => (M.vertEdges c).any (fun e => isRiver e))
        if path.isEmpty then none else some path) }

/-! ## Thermology (`crates/worldgen/src/thermology.rs`) -/

/-- Model of `Thermolgoy::recompute`: vertices surrounded by water cells are
scaled and capped, land vertices get the altitude penalty
`min(1.5 - height, 1.0)`; per-cell temperature is the corner average.
Returns `(corner_temperature, cell_temperature)`. -/
def thermology_recompute (M : Mesh) (hm : HeightMap) (terrain : ℕ → TerrainType)
    (innate : ℕ → ℚ) : (ℕ → ℚ) × (ℕ → ℚ) :=
  let cornerT := fun id =>
    let cells := (M.vertEdges id).flatMap M.edgeCells
    if cells.all (fun c => (terrain c).is_water) then
      qMin (qMul (innate id) (mkRat 1 2)) (mkRat 2 5)
    else
      qMul (innate id) (qMin (qSub (mkRat 3 2) (hm.corners id)) 1)
  (cornerT, corner_average M cornerT)

/-! ## The generation pipeline (`crates/worldgen/src/lib.rs` and
`crates/worldgen/src/generators.rs`)

The numeric kernels that are not rational-valued are abstracted into a
`NumEnv` record of *fixed pure functions*:

* `perlin x y` models `Perlin::new().get([x, y])` — deterministic, seedless;
* `clumpKernel amount decay cx cy x y` models
  `amount * decay.powf(((cx-x)^2 + (cy-y)^2).sqrt())` from `Clump::value`;
* `stream seed k` models the `k`-th value drawn from
  `SmallRng::seed_from_u64(seed)` (each `gen_range` call consumes one draw,
  in program order).

The same environment is shared by any two runs, which is exactly the
determinism assumption of the claims (the Rust functions are pure). -/

/-- Abstract numeric environment: Perlin noise, the clump kernel and the
seeded random stream. -/
structure NumEnv where
  perlin : ℚ → ℚ → ℚ
  clumpKernel : ℚ → ℚ → ℚ → ℚ → ℚ → ℚ → ℚ
  stream : ℕ → ℕ → ℚ

/-- Model of `conf::PerlinConf`. -/
structure PerlinConf where
  frequency : ℚ
  intensity : ℚ

/-- Model of `conf::NumberIntensity`. -/
structure NumberIntensity where
  number : ℕ
  intensity : ℚ

/-- Model of `conf::HeightMap` (the height-map section of `WorldGenConf`). -/
structure HeightMapConf where
  planchonDarboux : Bool
  slopes : NumberIntensity
  clumps : NumberIntensity
  depressions : NumberIntensity
  perlin1 : PerlinConf
  perlin2 : PerlinConf

/-- Model of `conf::RainConf`. -/
structure RainConf where
  heightCoeff : ℚ
  perlin : PerlinConf

/-- Model of `conf::Hydrology`. -/
structure HydrologyConf where
  minRiverFlux : ℚ
  rain : RainConf

/-- Model of `conf::WorldGenConf`. -/
structure WorldGenConf where
  heightmap : HeightMapConf
  hydrology : HydrologyConf

/-- Model of `GridGenerator::add_field`: add `field(x, y) * intensity` at
every vertex. -/
def add_field (M : Mesh) (f : ℚ → ℚ → ℚ) (intensity : ℚ) (w : ℕ → ℚ) : ℕ → ℚ :=
  fun id => qAdd (w id) (qMul (f (M.vertCoords id).1 (M.vertCoords id).2) intensity)

/-- Model of `Slope::value` for a slope through the map center with drawn
coefficient `m`: `(x - cx) * m - (y - cy)`. -/
def slope_value (m cx cy x y : ℚ) : ℚ := qSub (qMul (qSub x cx) m) (qSub y cy)

/-- Model of `Band::value`: `max(1 - |(x - cx) * m - (y - cy)| / radius, 0)`. -/
def band_value (cx cy m radius x y : ℚ) : ℚ :=
  qMax (qSub 1 (qDiv (qAbs (qSub (qMul (qSub x cx) m) (qSub y cy))) radius)) 0

/-- The slope loop of `generate`: each iteration draws `m` (one `gen_range`
call, then divided by `100`) and adds the slope field.  Threads the stream
counter. -/
def add_slopes (M : Mesh) (env : NumEnv) (seed : ℕ) (intensity : ℚ) :
    ℕ → (ℕ → ℚ) → ℕ → (ℕ → ℚ) × ℕ
  | 0, w, k => (w, k)
  | n + 1, w, k =>
    let m := qDiv (env.stream seed k) 100
    let w2 := add_field M (slope_value m (qDiv M.width 2) (qDiv M.height 2)) intensity w
    add_slopes M env seed intensity n w2 (k + 1)

/-- Model of `PerlinField::with_rng` + `add_field`: draw the two shifts (two
`gen_range` calls, x then y), then add
`perlin(x_shift + x * freq, y_shift + y * freq) * intensity`. -/
def add_perlin (M : Mesh) (env : NumEnv) (seed : ℕ) (freq intensity : ℚ)
    (w : ℕ → ℚ) (k : ℕ) : (ℕ → ℚ) × ℕ :=
  let xs := env.stream seed k
  let ys := env.stream seed (k + 1)
  let w2 := add_field M
    (fun x y => env.perlin (qAdd xs (qMul x freq)) (qAdd ys (qMul y freq))) intensity w
  (w2, k + 2)

/-- The clump/depression loops of `generate`: each iteration draws the center
(two `gen_range` calls, x then y) and adds `max(clumpKernel .., 0) * 1.0`
(`Clump::value` applies `.max(0.0)`; `decay` is `0.90`). -/
def add_clumps (M : Mesh) (env : NumEnv) (seed : ℕ) (amount : ℚ) :
    ℕ → (ℕ → ℚ) → ℕ → (ℕ → ℚ) × ℕ
  | 0, w, k => (w, k)
  | n + 1, w, k =>
    let cx := env.stream seed k
    let cy := env.stream seed (k + 1)
    let w2 := add_field M
      (fun x y => qMax (env.clumpKernel amount (mkRat 9 10) cx cy x y) 0) 1 w
    add_clumps M env seed amount n w2 (k + 2)

/-- Model of `GridGenerator::relax` (`update_with_neighbors`, one synchronous
Jacobi sweep over a snapshot): `x = t * (avg of neighbors) + (1 - t) * x`. -/
def relax_once (M : Mesh) (t : ℚ) (w : ℕ → ℚ) : ℕ → ℚ :=
  fun id =>
    let nbrs := M.vertNbrs id
    qAdd (qMul t (qDiv (qSum (nbrs.map w)) ((nbrs.length : ℕ) : ℚ)))
      (qMul (qSub 1 t) (w id))

/-- Iterated relaxation (`generate` runs three passes with `t = 0.2`). -/
def relax_n (M : Mesh) (t : ℚ) : ℕ → (ℕ → ℚ) → ℕ → ℚ
  | 0, w => w
  | n + 1, w => relax_n M t n (relax_once M t w)

/-- Model of `HydrologyBuilder::scale_by_height`: `rain += height * coeff` at
every vertex. -/
def scale_by_height (hm : HeightMap) (coeff : ℚ) (rain : ℕ → ℚ) : ℕ → ℚ :=
  fun id => qAdd (rain id) (qMul (hm.corners id) coeff)

/-- The fully generated world model (the fields of `WorldMap` the claims are
about). -/
structure WorldMapModel where
  heightmap : HeightMap
  terrain : ℕ → TerrainType
  hydrology : Hydrology
  cornerTemperature : ℕ → ℚ
  cellTemperature : ℕ → ℚ

/-- Model of `WorldGenerator::generate`: seed the stream once, consume it in
program order (slopes, perlin octave 1, perlin octave 2, clumps, depressions,
rainfall noise, thermology noise), relax, optionally depression-fill, build
the height map (which depression-fills again, as `HeightMapBuilder::build`
does), derive terrain, hydrology and thermology.  `fuel` bounds the
depression-filling loops; `order` is the `HashSet` iteration order used for
river paths (see `hydrology_recompute`). -/
def generate (M : Mesh) (conf : WorldGenConf) (env : NumEnv) (seed : ℕ)
    (fuel : ℕ) (order : List ℕ → List ℕ) : WorldMapModel :=
  let hc := conf.heightmap
  let p0 := add_slopes M env seed hc.slopes.intensity hc.slopes.number (fun _ => 0) 0
  let p1 := add_perlin M env seed hc.perlin1.frequency hc.perlin1.intensity p0.1 p0.2
  let p2 := add_perlin M env seed hc.perlin2.frequency hc.perlin2.intensity p1.1 p1.2
  let p3 := add_clumps M env seed hc.clumps.intensity hc.clumps.number p2.1 p2.2
  let p4 := add_clumps M env seed (qNeg hc.depressions.intensity) hc.depressions.number p3.1 p3.2
  let w5 := relax_n M (mkRat 1 5) 3 p4.1
  let w6 := if hc.planchonDarboux then planchon_darboux M fuel w5 else w5
  let hm := build M fuel w6
  let terrain := fun cell => from_height_total (hm.cells cell)
  let rain0 := scale_by_height hm conf.hydrology.rain.heightCoeff (fun _ => 0)
  let pr := add_perlin M env seed conf.hydrology.rain.perlin.frequency
    conf.hydrology.rain.perlin.intensity rain0 p4.2
  let hyd := hydrology_recompute M hm pr.1 terrain conf.hydrology.minRiverFlux order
  let pt := add_perlin M env seed (mkRat 1 2000) (mkRat 1 5) (fun _ => 0) pr.2
  let tband := add_field M
    (band_value (qDiv M.width 2) (qDiv M.height 2) 0 (qDiv M.height 2)) (mkRat 4 5) pt.1
  let thermo := thermology_recompute M hm terrain tband
  { heightmap := hm
    terrain := terrain
    hydrology := hyd
    cornerTemperature := thermo.1
    cellTemperature := thermo.2 }

/-- The output fields claim C7 asserts to be reproducible: per-vertex and
per-cell heights, corner and edge flux, and corner and cell temperatures. -/
def gen_outputs (wm : WorldMapModel) :
    (ℕ → ℚ) × (ℕ → ℚ) × (ℕ → ℚ) × (ℕ → ℚ) × (ℕ → ℚ) × (ℕ → ℚ) :=
  (wm.heightmap.corners, wm.heightmap.cells, wm.hydrology.cornerFlux,
   wm.hydrology.edgeFlux, wm.cornerTemperature, wm.cellTemperature)

/-! ## Concrete instances used by witnesses and counterexamples

A small concrete mesh in the shape the Voronoi construction produces: two
border vertices (`0`, `1`), four interior vertices, seven edges, two cells;
adjacency is symmetric and all neighbor ids are in range. -/

/-- Neighbor lists of the concrete mesh. -/
def wNbrs : List (List ℕ) := [[1, 2], [0, 2], [0, 1, 3], [2, 4, 5], [3, 5], [3, 4]]

/-- A concrete six-vertex mesh (vertices `0` and `1` are the border). -/
def wMesh : Mesh where
  numVerts := 6
  vertNbrs := fun id => wNbrs.getD id []
  vertBorder := fun id => id ≤ 1
  vertCoords := fun id =>
    ([(0, 0), (1, 0), (0, 1), (1, 1), (2, 1), (2, 2)] : List (ℚ × ℚ)).getD id (0, 0)
  vertEdges := fun id =>
    ([[0, 1], [0, 2], [1, 2, 3], [3, 4, 5], [4, 6], [5, 6]] : List (List ℕ)).getD id []
  numEdges := 7
  edgeStart := fun e => ([0, 0, 1, 2, 3, 3, 4] : List ℕ).getD e 0
  edgeEnd := fun e => ([1, 2, 2, 3, 4, 5, 5] : List ℕ).getD e 0
  edgeCells := fun e =>
    ([[0], [0], [0], [0, 1], [1], [1], [1]] : List (List ℕ)).getD e []
  numCells := 2
  cellCorners := fun c => ([[0, 1, 2], [3, 4, 5]] : List (List ℕ)).getD c []
  width := 10
  height := 10

/-- Input heights for the claim-C1 counterexample: the border sits at
`99.9985`, just under `100 - epsilon`, and the interior at `0`.  (`lib.rs`
composes unbounded slope/clump fields with configurable intensities, so
heights of this size are reachable inputs of `build`.) -/
def cexHeights : ℕ → ℚ :=
  fun id => ([mkRat 199997 2000, mkRat 199997 2000, 0, 0, 0, 0] : List ℚ).getD id 0

/-- The all-zero per-vertex field. -/
def zeroField : ℕ → ℚ := fun _ => 0

/-- A configuration with no slopes/clumps/depressions and zero noise
intensities: `generate` then builds the height map from the all-zero field. -/
def zeroConf : WorldGenConf where
  heightmap :=
    { planchonDarboux := false
      slopes := { number := 0, intensity := 1 }
      clumps := { number := 0, intensity := 1 }
      depressions := { number := 0, intensity := 1 }
      perlin1 := { frequency := 1, intensity := 0 }
      perlin2 := { frequency := 1, intensity := 0 } }
  hydrology :=
    { minRiverFlux := 1
      rain := { heightCoeff := 1, perlin := { frequency := 1, intensity := 0 } } }

/-- A concrete numeric environment (all kernels constantly zero). -/
def zeroEnv : NumEnv where
  perlin := fun _ _ => 0
  clumpKernel := fun _ _ _ _ _ _ => 0
  stream := fun _ _ => 0

/-- A concrete `HashSet` iteration order: the insertion order itself. -/
def idOrder : List ℕ → List ℕ := fun l => l

/-- Per-vertex rainfall used by the flux-conservation witness. -/
def wRain : ℕ → ℚ := fun id => ([1, 2, 3, 4, 5, 6] : List ℚ).getD id 0

end WorldGen

namespace WorldGen

/-! Bridge lemmas relating the kernel-reducible rational operations to the
standard field operations on ℚ. -/

theorem qAdd_eq (a b : ℚ) : qAdd a b = a + b := (Rat.add_def' a b).symm

theorem qSub_eq (a b : ℚ) : qSub a b = a - b := (Rat.sub_def' a b).symm

theorem qMul_eq (a b : ℚ) : qMul a b = a * b := by
  rw [qMul, Rat.mul_def, Rat.normalize_eq_mkRat]

theorem qNeg_eq (a : ℚ) : qNeg a = -a := by
  rw [qNeg, Rat.mkRat_eq_divInt, ← Rat.neg_def]

theorem qDiv_eq (a b : ℚ) : qDiv a b = a / b := by
  rw [qDiv, Rat.div_def']
  rcases lt_trichotomy b.num 0 with h | h | h
  · rw [if_pos h, Rat.mkRat_eq_divInt]
    have hd : ((a.den : ℤ) * b.num) < 0 :=
      mul_neg_of_pos_of_neg (by exact_mod_cast a.pos) h
    rw [Int.ofNat_natAbs_of_nonpos (le_of_lt hd), Rat.divInt_neg, neg_neg]
  · rw [if_neg (by omega), h, mul_zero, Rat.mkRat_eq_divInt]
    simp
  · rw [if_neg (by omega), Rat.mkRat_eq_divInt]
    have hd : 0 ≤ ((a.den : ℤ) * b.num) :=
      le_of_lt (mul_pos (by exact_mod_cast a.pos) h)
    rw [Int.natAbs_of_nonneg hd]

theorem qAbs_eq (a : ℚ) : qAbs a = |a| := by
  rw [qAbs, Rat.abs_def, Rat.mkRat_eq_divInt]

theorem qLtB_iff (a b : ℚ) : qLtB a b = true ↔ a < b := by
  rw [qLtB, decide_eq_true_iff, Rat.lt_def]

theorem qLeB_iff (a b : ℚ) : qLeB a b = true ↔ a ≤ b := by
  rw [qLeB, decide_eq_true_iff, Rat.le_def]

theorem qEqB_iff (a b : ℚ) : qEqB a b = true ↔ a = b := by
  rw [qEqB, Bool.and_eq_true, decide_eq_true_iff, decide_eq_true_iff]
  exact ⟨fun hp => Rat.ext hp.1 hp.2, fun hp => by rw [hp]; exact ⟨rfl, rfl⟩⟩

theorem qMin_eq (a b : ℚ) : qMin a b = min a b := by
  rw [qMin, min_def]
  by_cases h : a ≤ b
  · rw [if_pos (qLeB_iff a b |>.mpr h), if_pos h]
  · rw [if_neg (fun hc => h ((qLeB_iff a b).mp hc)), if_neg h]

theorem qMax_eq (a b : ℚ) : qMax a b = max a b := by
  rw [qMax, max_def]
  by_cases h : a ≤ b
  · rw [if_pos (qLeB_iff a b |>.mpr h), if_pos h]
  · rw [if_neg (fun hc => h ((qLeB_iff a b).mp hc)), if_neg h]

theorem qSum_eq (l : List ℚ) : qSum l = l.sum := by
  induction l with
  | nil => rfl
  | cons a l ih => rw [qSum, qAdd_eq, ih, List.sum_cons]

theorem qLtB_false_iff (a b : ℚ) : qLtB a b = false ↔ b ≤ a := by
  rw [← Bool.not_eq_true, qLtB_iff, not_lt]

theorem qLeB_false_iff (a b : ℚ) : qLeB a b = false ↔ b < a := by
  rw [← Bool.not_eq_true, qLeB_iff, not_le]

theorem qEqB_false_iff (a b : ℚ) : qEqB a b = false ↔ a ≠ b := by
  rw [← Bool.not_eq_true, qEqB_iff]

theorem mkRat_eq_div (n : ℤ) (d : ℕ) : mkRat n d = (n : ℚ) / (d : ℚ) := by
  rw [Rat.mkRat_eq_divInt, Rat.divInt_eq_div]
  norm_cast

theorem qLtB_elim (a b : ℚ) (hb : qLtB a b = true) : a < b := (qLtB_iff a b).mp hb

theorem qLeB_elim (a b : ℚ) (hb : qLeB a b = true) : a ≤ b := (qLeB_iff a b).mp hb

/-! ### List helpers -/

theorem forall_getD {α : Type} (l : List α) (d : α) (p : α → Prop)
    (hl : ∀ x ∈ l, p x) (hd : p d) : ∀ id, p (l.getD id d) := by
  intro id
  by_cases hlt : id < l.length
  · rw [List.getD_eq_getElem l d hlt]
    exact hl _ (List.getElem_mem hlt)
  · rw [List.getD_eq_default l d (le_of_not_lt hlt)]
    exact hd

/-! ### Terrain-table case analysis (used by claims C6 and C10)

`idx_from_height` on the concrete five-row table, split by where the queried
height falls. -/

theorem idx_from_height_neg (h : ℚ) (hh : h < 0) : idx_from_height h = some 0 := by
  have b0 : qLtB h 0 = true := (qLtB_iff h 0).mpr hh
  simp [idx_from_height, levels, List.findIdx?_cons, b0]

theorem idx_from_height_low (h : ℚ) (h0 : 0 ≤ h) (hh : h < mkRat 1 2) :
    idx_from_height h = some 1 := by
  have b0 : qLtB h 0 = false := (qLtB_false_iff h 0).mpr h0
  have b1 : qLtB h (mkRat 1 2) = true := (qLtB_iff h (mkRat 1 2)).mpr hh
  simp [idx_from_height, levels, List.findIdx?_cons, b0, b1]

theorem idx_from_height_mid (h : ℚ) (h0 : mkRat 1 2 ≤ h) (hh : h < mkRat 3 4) :
    idx_from_height h = some 3 := by
  have b1 : qLtB h (mkRat 1 2) = false := (qLtB_false_iff h (mkRat 1 2)).mpr h0
  have b0 : qLtB h 0 = false := (qLtB_false_iff h 0).mpr (le_trans (by norm_num [mkRat_eq_div]) h0)
  have b3 : qLtB h (mkRat 3 4) = true := (qLtB_iff h (mkRat 3 4)).mpr hh
  simp [idx_from_height, levels, List.findIdx?_cons, b0, b1, b3]

theorem idx_from_height_high (h : ℚ) (h0 : mkRat 3 4 ≤ h) (hh : h < mkRat 100001 100000) :
    idx_from_height h = some 4 := by
  have b3 : qLtB h (mkRat 3 4) = false := (qLtB_false_iff h (mkRat 3 4)).mpr h0
  have b1 : qLtB h (mkRat 1 2) = false :=
    (qLtB_false_iff h (mkRat 1 2)).mpr (le_trans (by norm_num [mkRat_eq_div]) h0)
  have b0 : qLtB h 0 = false :=
    (qLtB_false_iff h 0).mpr (le_trans (by norm_num [mkRat_eq_div]) h0)
  have b4 : qLtB h (mkRat 100001 100000) = true :=
    (qLtB_iff h (mkRat 100001 100000)).mpr hh
  simp [idx_from_height, levels, List.findIdx?_cons, b0, b1, b3, b4]

theorem idx_from_height_top (h : ℚ) (h0 : mkRat 100001 100000 ≤ h) :
    idx_from_height h = none := by
  have b4 : qLtB h (mkRat 100001 100000) = false := (qLtB_false_iff h (mkRat 100001 100000)).mpr h0
  have b3 : qLtB h (mkRat 3 4) = false :=
    (qLtB_false_iff h (mkRat 3 4)).mpr (le_trans (by norm_num [mkRat_eq_div]) h0)
  have b1 : qLtB h (mkRat 1 2) = false :=
    (qLtB_false_iff h (mkRat 1 2)).mpr (le_trans (by norm_num [mkRat_eq_div]) h0)
  have b0 : qLtB h 0 = false :=
    (qLtB_false_iff h 0).mpr (le_trans (by norm_num [mkRat_eq_div]) h0)
  simp [idx_from_height, levels, List.findIdx?_cons, b0, b1, b3, b4]

/-- Claim C6: `TerrainType::from_height(h)` returns the category at the
smallest index `i` such that `h < LEVELS[i].threshold` over the ordered
five-row table, for every `h` below the largest threshold `1.00001`; in
particular the strict `<` comparison sends a height equal to a threshold to
the category strictly above it: `from_height(0.5) = Hill` and
`from_height(0.0) = Water`. -/
theorem C6_terrain_lookup (h : ℚ) (hlt : h < mkRat 100001 100000) :
    (∃ i, idx_from_height h = some i ∧ i < levels.length ∧
      h < (levels.getD i default).2 ∧
      (∀ j < i, (levels.getD j default).2 ≤ h) ∧
      from_height h = some (levels.getD i default).1) ∧
    from_height (mkRat 1 2) = some .Hill ∧ from_height 0 = some .Water := by
  refine ⟨?_, by decide, by decide⟩
  rcases lt_or_le h 0 with hc | hc
  · refine ⟨0, idx_from_height_neg h hc, by decide, hc, by omega, ?_⟩
    rw [from_height, idx_from_height_neg h hc]
    rfl
  rcases lt_or_le h (mkRat 1 2) with hc1 | hc1
  · refine ⟨1, idx_from_height_low h hc hc1, by decide, hc1, ?_, ?_⟩
    · intro j hj
      interval_cases j
      exact hc
    · rw [from_height, idx_from_height_low h hc hc1]
      rfl
  rcases lt_or_le h (mkRat 3 4) with hc3 | hc3
  · refine ⟨3, idx_from_height_mid h hc1 hc3, by decide, hc3, ?_, ?_⟩
    · intro j hj
      interval_cases j
      · exact hc
      · exact hc1
      · exact hc1
    · rw [from_height, idx_from_height_mid h hc1 hc3]
      rfl
  · refine ⟨4, idx_from_height_high h hc3 hlt, by decide, hlt, ?_, ?_⟩
    · intro j hj
      interval_cases j
      · exact hc
      · exact hc1
      · exact hc1
      · exact hc3
    · rw [from_height, idx_from_height_high h hc3 hlt]
      rfl

/-- Witness for claim C6 at the boundary height `0.5`. -/
theorem C6_witness :
    (mkRat 1 2 < mkRat 100001 100000) ∧
    ((∃ i, idx_from_height (mkRat 1 2) = some i ∧ i < levels.length ∧
      mkRat 1 2 < (levels.getD i default).2 ∧
      (∀ j < i, (levels.getD j default).2 ≤ mkRat 1 2) ∧
      from_height (mkRat 1 2) = some (levels.getD i default).1) ∧
    from_height (mkRat 1 2) = some .Hill ∧ from_height 0 = some .Water) :=
  ⟨qLtB_elim _ _ (by decide), C6_terrain_lookup (mkRat 1 2) (qLtB_elim _ _ (by decide))⟩

/-- Claim C10: the terrain classification functions are partial at the public
interface: `from_height` and `from_height_range` panic (= `none` here) for
every height at or above the top threshold `1.00001`; `from_height_range`
additionally underflows the `usize` subtraction `high_idx - 1` for every
negative height (= `none`, checked-arithmetic semantics); and both are total
on `0 ≤ h < 1.00001`. -/
theorem C10_partial_terrain_interface (h : ℚ) :
    (mkRat 100001 100000 ≤ h → from_height h = none ∧ from_height_range h = none) ∧
    (h < 0 → from_height_range h = none) ∧
    (0 ≤ h → h < mkRat 100001 100000 →
      (from_height h).isSome = true ∧ (from_height_range h).isSome = true) := by
  refine ⟨fun htop => ?_, fun hneg => ?_, fun h0 hlt => ?_⟩
  · rw [from_height, from_height_range, idx_from_height_top h htop]
    exact ⟨rfl, rfl⟩
  · rw [from_height_range, idx_from_height_neg h hneg]
  · rcases lt_or_le h (mkRat 1 2) with hc1 | hc1
    · rw [from_height, from_height_range, idx_from_height_low h h0 hc1]
      exact ⟨rfl, rfl⟩
    rcases lt_or_le h (mkRat 3 4) with hc3 | hc3
    · rw [from_height, from_height_range, idx_from_height_mid h hc1 hc3]
      exact ⟨rfl, rfl⟩
    · rw [from_height, from_height_range, idx_from_height_high h hc3 hlt]
      exact ⟨rfl, rfl⟩

/-- Witness for claim C10 at the heights `2` (panic), `-1` (underflow) and
`0.6` (total). -/
theorem C10_witness :
    ((mkRat 100001 100000 ≤ 2 → from_height 2 = none ∧ from_height_range 2 = none) ∧
      ((2 : ℚ) < 0 → from_height_range 2 = none) ∧
      ((0 : ℚ) ≤ 2 → (2 : ℚ) < mkRat 100001 100000 →
        (from_height 2).isSome = true ∧ (from_height_range 2).isSome = true)) ∧
    ((mkRat 100001 100000 ≤ -1 → from_height (-1) = none ∧ from_height_range (-1) = none) ∧
      ((-1 : ℚ) < 0 → from_height_range (-1) = none) ∧
      ((0 : ℚ) ≤ -1 → (-1 : ℚ) < mkRat 100001 100000 →
        (from_height (-1)).isSome = true ∧ (from_height_range (-1)).isSome = true)) ∧
    (from_height 2 = none ∧ from_height_range 2 = none) ∧
    from_height_range (-1) = none ∧
    ((from_height (mkRat 3 5)).isSome = true ∧ (from_height_range (mkRat 3 5)).isSome = true) :=
  ⟨C10_partial_terrain_interface 2, C10_partial_terrain_interface (-1),
    (C10_partial_terrain_interface 2).1 (qLeB_elim _ _ (by decide)),
    (C10_partial_terrain_interface (-1)).2.1 (qLtB_elim _ _ (by decide)),
    (C10_partial_terrain_interface (mkRat 3 5)).2.2 (qLeB_elim _ _ (by decide))
      (qLtB_elim _ _ (by decide))⟩

/-! ### Claim C9: ground / vegetation composition sums -/

/-- Counterexample to claim C9 as stated: at the concrete input
`Ground::new(Land, rain = 0, drain = -0.2, height = 1)` the unnormalized
component total is `0`, so `Ground::normalize` returns the composition
unchanged and its components sum to `0`, not to `1` within `1e-9`. -/
theorem C9_counterexample :
    ¬ (|(Ground.new .Land 0 (mkRat (-1) 5) 1).total - 1| ≤ mkRat 1 1000000000) := by
  have ht : (Ground.new .Land 0 (mkRat (-1) 5) 1).total = 0 := by decide
  rw [ht]
  norm_num [mkRat_eq_div]

theorem ground_normalize_total (g : Ground) (hg : g.total ≠ 0) : g.normalize.total = 1 := by
  have ht : g.water + (g.sand + (g.soil + g.rock)) = g.total := by
    rw [Ground.total, qAdd_eq, qAdd_eq, qAdd_eq]
  have hs : g.water + (g.sand + (g.soil + g.rock)) ≠ 0 := by rw [ht]; exact hg
  rw [Ground.normalize, if_neg (by simp [qEqB_iff, hg] : ¬ (qEqB g.total 0 = true))]
  simp only [Ground.total, qAdd_eq, qDiv_eq]
  field_simp

theorem vegetation_normalize_total (v : Vegetation) (hv : v.total ≠ 0) :
    v.normalize.total = 1 := by
  have ht : v.none_ + (v.deciduous + v.boreal) = v.total := by
    rw [Vegetation.total, qAdd_eq, qAdd_eq]
  have hs : v.none_ + (v.deciduous + v.boreal) ≠ 0 := by rw [ht]; exact hv
  rw [Vegetation.normalize, if_neg (by simp [qEqB_iff, hv] : ¬ (qEqB v.total 0 = true))]
  simp only [Vegetation.total, qAdd_eq, qDiv_eq]
  field_simp

/-- Claim C9, amended: for every input combination, the composition returned
by `Ground::new` (resp. `Vegetation::new`) sums to exactly `1` *provided* the
unnormalized component total is nonzero; when that total is `0` the
composition is returned unchanged (`Ground::normalize`'s zero branch), so its
sum is `0`, not `1`. -/
theorem C9_composition_sums (tc : TerrainCategory) (rain drain height temperature : ℚ) :
    ((ground_pre rain drain height).total ≠ 0 →
      (Ground.new tc rain drain height).total = 1) ∧
    ((vegetation_pre rain temperature height).total ≠ 0 →
      (Vegetation.new tc rain temperature height).total = 1) := by
  constructor
  · intro hg
    rw [Ground.new]
    by_cases hsea : tc = .Sea
    · rw [if_pos hsea]
      decide
    · rw [if_neg hsea]
      exact ground_normalize_total _ hg
  · intro hv
    cases tc with
    | Sea =>
      show ({ none_ := 1, deciduous := 0, boreal := 0 } : Vegetation).total = 1
      decide
    | Coast => exact vegetation_normalize_total _ hv
    | Land => exact vegetation_normalize_total _ hv

/-- Witness for claim C9 at `Land, rain = 0, drain = 0, height = 0,
temperature = 0` (both unnormalized totals are nonzero there). -/
theorem C9_witness :
    ((ground_pre 0 0 0).total ≠ 0 ∧ (Ground.new .Land 0 0 0).total = 1) ∧
    ((vegetation_pre 0 0 0).total ≠ 0 ∧ (Vegetation.new .Land 0 0 0).total = 1) :=
  ⟨⟨by decide, (C9_composition_sums .Land 0 0 0 0).1 (by decide)⟩,
    ⟨by decide, (C9_composition_sums .Land 0 0 0 0).2 (by decide)⟩⟩

/-! ### Claim C8: normalizing a field with no variance -/

/-- Counterexample to claim C8 as stated: on the constant two-element field
`[1, 1]`, both `GridGenerator::normalize` and `Field::normalize` run to
completion but every element becomes the IEEE result of `0.0 / 0.0` — NaN
(modelled as `none`) — rather than a well-defined neutral value. -/
theorem C8_counterexample :
    grid_normalizeF [1, 1] = some [none, none] ∧ field_normalizeF [1, 1] = [none, none] := by
  constructor
  · decide
  · decide

theorem foldl_qMin_replicate (m : ℕ) (c : ℚ) : (List.replicate m c).foldl qMin c = c := by
  induction m with
  | zero => rfl
  | succ n ih =>
    rw [List.replicate_succ, List.foldl_cons]
    have hmin : qMin c c = c := by rw [qMin_eq, min_self]
    rw [hmin, ih]

theorem foldl_qMax_replicate (m : ℕ) (c : ℚ) : (List.replicate m c).foldl qMax c = c := by
  induction m with
  | zero => rfl
  | succ n ih =>
    rw [List.replicate_succ, List.foldl_cons]
    have hmax : qMax c c = c := by rw [qMax_eq, max_self]
    rw [hmax, ih]

/-- Claim C8, amended: normalizing a nonempty field with no variance
(all elements equal, within the `f64` range) completes without failure in both
`GridGenerator::normalize` and `Field::normalize`, but it does *not* produce a
neutral value: every element becomes the non-finite result of dividing by the
zero variance (`0.0 / 0.0 = NaN`), which is propagated into the field.  (The
zero-total guard described by the spec exists only in `Ground::normalize`,
`Vegetation::normalize` and `Vec2::to_polar`, not here.) -/
theorem C8_normalize_no_variance (c : ℚ) (n : ℕ) (hn : 0 < n)
    (hlo : -f64max ≤ c) (hhi : c ≤ f64max) :
    grid_normalizeF (List.replicate n c) = some (List.replicate n none) ∧
    field_normalizeF (List.replicate n c) = List.replicate n none := by
  obtain ⟨m, rfl⟩ : ∃ m, n = m + 1 := ⟨n - 1, by omega⟩
  have hdiv : qDivF (qSub c c) (qSub c c) = none := by
    rw [qDivF, if_pos (by rw [qEqB_iff, qSub_eq]; ring)]
  have hminr : listMinQ (List.replicate (m + 1) c) = some c := by
    rw [List.replicate_succ, listMinQ, foldl_qMin_replicate]
  have hmaxr : listMaxQ (List.replicate (m + 1) c) = some c := by
    rw [List.replicate_succ, listMaxQ, foldl_qMax_replicate]
  constructor
  · simp only [grid_normalizeF, hminr, hmaxr, List.map_replicate, hdiv]
  · rw [field_normalizeF]
    have hmn : (List.replicate (m + 1) c).foldl qMin f64max = c := by
      rw [List.replicate_succ, List.foldl_cons,
        (by rw [qMin_eq]; exact min_eq_right hhi : qMin f64max c = c), foldl_qMin_replicate]
    have hmx : (List.replicate (m + 1) c).foldl qMax (qNeg f64max) = c := by
      rw [List.replicate_succ, List.foldl_cons,
        (by rw [qMax_eq, qNeg_eq]; exact max_eq_right hlo : qMax (qNeg f64max) c = c),
        foldl_qMax_replicate]
    rw [hmn, hmx, List.map_replicate, hdiv]

/-- Witness for claim C8 at the constant field `[5, 5]`. -/
theorem C8_witness :
    ((0 : ℕ) < 2 ∧ -f64max ≤ 5 ∧ (5 : ℚ) ≤ f64max) ∧
    grid_normalizeF (List.replicate 2 (5 : ℚ)) = some (List.replicate 2 none) ∧
    field_normalizeF (List.replicate 2 (5 : ℚ)) = List.replicate 2 none := by
  have hlo : -f64max ≤ (5 : ℚ) := by rw [← qNeg_eq]; exact qLeB_elim _ _ (by decide)
  have hhi : (5 : ℚ) ≤ f64max := qLeB_elim _ _ (by decide)
  exact ⟨⟨by decide, hlo, hhi⟩, C8_normalize_no_variance 5 2 (by decide) hlo hhi⟩

/-! ### Claim C4: river-segment membership -/

/-- Counterexample to claim C4 as stated: edge `3` of the concrete mesh is
owned by one water cell and one land cell and its flux `10` exceeds the cutoff
`1`, so the claim says it *is* a river segment; `Rivers::compute` flags it
`false`, because the code excludes an edge when *any* (not: every) owning cell
is water. -/
theorem C4_counterexample :
    edge_is_river wMesh (fun c => (([TerrainType.Water, .Land] : List TerrainType).getD c .Land))
      (fun _ => 10) 1 3 = false ∧
    (1 : ℚ) < 10 ∧
    ((wMesh.edgeCells 3).all
      (fun c => ((([TerrainType.Water, .Land] : List TerrainType).getD c .Land)).is_water)) = false :=
  ⟨by decide, by norm_num, by decide⟩

/-- Claim C4, amended: an edge is flagged as a river segment iff its flux
strictly exceeds `min_river_flux` and *none* of its owning cells has
water-category terrain; in particular an edge owned by one water and one land
cell is not a river segment. -/
theorem C4_river_flag (M : Mesh) (terrain : ℕ → TerrainType) (eflux : ℕ → ℚ)
    (minF : ℚ) (e : ℕ) :
    edge_is_river M terrain eflux minF e = true ↔
      (minF < eflux e ∧ ∀ c ∈ M.edgeCells e, (terrain c).is_water = false) := by
  rw [edge_is_river, Bool.and_eq_true, Bool.not_eq_true', List.any_eq_false, qLtB_iff, and_comm]
  constructor
  · exact fun hp => ⟨hp.1, fun c hc => by simpa using hp.2 c hc⟩
  · exact fun hp => ⟨hp.1, fun c hc => by simp [hp.2 c hc]⟩

/-- Witness for claim C4: edge `0` of the concrete mesh (owned by a single
land cell, flux `10 > 1`) is a river segment. -/
theorem C4_witness :
    edge_is_river wMesh (fun _ => TerrainType.Land) (fun _ => 10) 1 0 = true :=
  (C4_river_flag wMesh (fun _ => .Land) (fun _ => 10) 1 0).mpr ⟨by norm_num, by decide⟩

/-! ### Claim C5: elevation normalization -/

/-- Counterexample to claim C5 as stated: running `WorldGenerator::generate`
on the concrete mesh with a configuration of zero slopes/clumps/noise leaves
the all-zero input field; `HeightMapBuilder::build` depression-fills it and
returns corner heights `[0, 0, 0.001, 0.002, 0.003, 0.003]` — no
normalization step runs anywhere in `build` or `generate`, so the maximum
corner height is `0.003`, not `1.0`. -/
theorem C5_counterexample :
    listMaxQ ((List.range wMesh.numVerts).map
      (generate wMesh zeroConf zeroEnv 0 10 idOrder).heightmap.corners) = some (mkRat 3 1000) ∧
    (mkRat 3 1000 : ℚ) ≠ 1 :=
  ⟨by decide, by decide⟩

theorem foldl_qMin_spec (t : List ℚ) (a : ℚ) :
    (t.foldl qMin a = a ∨ t.foldl qMin a ∈ t) ∧
      t.foldl qMin a ≤ a ∧ ∀ x ∈ t, t.foldl qMin a ≤ x := by
  induction t generalizing a with
  | nil => simp
  | cons b t ih =>
    rw [List.foldl_cons]
    obtain ⟨hmem, hle, hall⟩ := ih (qMin a b)
    refine ⟨?_, ?_, ?_⟩
    · rcases hmem with hm | hm
      · rcases min_choice a b with hc | hc
        · exact Or.inl (by rw [hm, qMin_eq, hc])
        · exact Or.inr (by rw [hm, qMin_eq, hc]; exact List.mem_cons_self b t)
      · exact Or.inr (List.mem_cons_of_mem b hm)
    · exact hle.trans (by rw [qMin_eq]; exact min_le_left a b)
    · intro x hx
      rcases List.mem_cons.mp hx with rfl | hx
      · exact hle.trans (by rw [qMin_eq]; exact min_le_right a x)
      · exact hall x hx

theorem foldl_qMax_spec (t : List ℚ) (a : ℚ) :
    (t.foldl qMax a = a ∨ t.foldl qMax a ∈ t) ∧
      a ≤ t.foldl qMax a ∧ ∀ x ∈ t, x ≤ t.foldl qMax a := by
  induction t generalizing a with
  | nil => simp
  | cons b t ih =>
    rw [List.foldl_cons]
    obtain ⟨hmem, hle, hall⟩ := ih (qMax a b)
    refine ⟨?_, ?_, ?_⟩
    · rcases hmem with hm | hm
      · rcases max_choice a b with hc | hc
        · exact Or.inl (by rw [hm, qMax_eq, hc])
        · exact Or.inr (by rw [hm, qMax_eq, hc]; exact List.mem_cons_self b t)
      · exact Or.inr (List.mem_cons_of_mem b hm)
    · exact le_trans (by rw [qMax_eq]; exact le_max_left a b) hle
    · intro x hx
      rcases List.mem_cons.mp hx with rfl | hx
      · exact le_trans (by rw [qMax_eq]; exact le_max_right a x) hle
      · exact hall x hx

theorem listMinQ_spec (l : List ℚ) (mn : ℚ) (hl : listMinQ l = some mn) :
    mn ∈ l ∧ ∀ x ∈ l, mn ≤ x := by
  cases l with
  | nil => exact absurd hl (by rw [listMinQ]; exact Option.noConfusion)
  | cons a t =>
    rw [listMinQ, Option.some_inj] at hl
    obtain ⟨hmem, hle, hall⟩ := foldl_qMin_spec t a
    subst hl
    refine ⟨?_, ?_⟩
    · rcases hmem with hm | hm
      · rw [hm]; exact List.mem_cons_self a t
      · exact List.mem_cons_of_mem a hm
    · intro x hx
      rcases List.mem_cons.mp hx with rfl | hx
      · exact hle
      · exact hall x hx

theorem listMaxQ_spec (l : List ℚ) (mx : ℚ) (hl : listMaxQ l = some mx) :
    mx ∈ l ∧ ∀ x ∈ l, x ≤ mx := by
  cases l with
  | nil => exact absurd hl (by rw [listMaxQ]; exact Option.noConfusion)
  | cons a t =>
    rw [listMaxQ, Option.some_inj] at hl
    obtain ⟨hmem, hle, hall⟩ := foldl_qMax_spec t a
    subst hl
    refine ⟨?_, ?_⟩
    · rcases hmem with hm | hm
      · rw [hm]; exact List.mem_cons_self a t
      · exact List.mem_cons_of_mem a hm
    · intro x hx
      rcases List.mem_cons.mp hx with rfl | hx
      · exact hle
      · exact hall x hx

theorem listMinQ_intro (l : List ℚ) (a : ℚ) (hmem : a ∈ l) (hlb : ∀ x ∈ l, a ≤ x) :
    listMinQ l = some a := by
  cases l with
  | nil => exact absurd hmem (List.not_mem_nil a)
  | cons b t =>
    rw [listMinQ, Option.some_inj]
    obtain ⟨hm, hle, hall⟩ := foldl_qMin_spec t b
    refine le_antisymm ?_ ?_
    · rcases List.mem_cons.mp hmem with rfl | hx
      · exact hle
      · exact hall a hx
    · rcases hm with hm | hm
      · rw [hm]; exact hlb b (List.mem_cons_self b t)
      · exact hlb _ (List.mem_cons_of_mem b hm)

theorem listMaxQ_intro (l : List ℚ) (a : ℚ) (hmem : a ∈ l) (hub : ∀ x ∈ l, x ≤ a) :
    listMaxQ l = some a := by
  cases l with
  | nil => exact absurd hmem (List.not_mem_nil a)
  | cons b t =>
    rw [listMaxQ, Option.some_inj]
    obtain ⟨hm, hle, hall⟩ := foldl_qMax_spec t b
    refine le_antisymm ?_ ?_
    · rcases hm with hm | hm
      · rw [hm]; exact hub b (List.mem_cons_self b t)
      · exact hub _ (List.mem_cons_of_mem b hm)
    · rcases List.mem_cons.mp hmem with rfl | hx
      · exact hle
      · exact hall a hx

/-- Claim C5, amended: neither `HeightMapBuilder::build` nor
`WorldGenerator::generate` normalizes elevations (see the counterexample);
the builder's `normalize` method — which `generate` never calls — would
rescale them: applied to any grid whose minimum is strictly below its maximum
it produces a grid with minimum exactly `0` and maximum exactly `1`. -/
theorem C5_normalize_range (l : List ℚ) (mn mx : ℚ) (hmin : listMinQ l = some mn)
    (hmax : listMaxQ l = some mx) (hlt : mn < mx) :
    ∃ nl, grid_normalize l = some nl ∧ listMinQ nl = some 0 ∧ listMaxQ nl = some 1 := by
  obtain ⟨hmnmem, hmnlb⟩ := listMinQ_spec l mn hmin
  obtain ⟨hmxmem, hmxub⟩ := listMaxQ_spec l mx hmax
  have hd : (0 : ℚ) < mx - mn := by linarith
  have hdne : mx - mn ≠ 0 := ne_of_gt hd
  refine ⟨l.map (fun x => qDiv (qSub x mn) (qSub mx mn)), ?_, ?_, ?_⟩
  · rw [grid_normalize, hmin, hmax]
  · refine listMinQ_intro _ 0 ?_ ?_
    · have : qDiv (qSub mn mn) (qSub mx mn) = 0 := by
        rw [qDiv_eq, qSub_eq, qSub_eq, sub_self, zero_div]
      exact this ▸ List.mem_map_of_mem _ hmnmem
    · intro y hy
      obtain ⟨x, hx, rfl⟩ := List.mem_map.mp hy
      rw [qDiv_eq, qSub_eq, qSub_eq]
      exact div_nonneg (by linarith [hmnlb x hx]) (le_of_lt hd)
  · refine listMaxQ_intro _ 1 ?_ ?_
    · have : qDiv (qSub mx mn) (qSub mx mn) = 1 := by
        rw [qDiv_eq, qSub_eq, div_self hdne]
      exact this ▸ List.mem_map_of_mem _ hmxmem
    · intro y hy
      obtain ⟨x, hx, rfl⟩ := List.mem_map.mp hy
      rw [qDiv_eq, qSub_eq, qSub_eq]
      rw [div_le_one hd]
      linarith [hmxub x hx]

/-- Witness for claim C5 on the grid `[2, 0]`. -/
theorem C5_witness :
    (listMinQ [2, 0] = some 0 ∧ listMaxQ [2, 0] = some 2 ∧ (0 : ℚ) < 2) ∧
    (∃ nl, grid_normalize [2, 0] = some nl ∧ listMinQ nl = some 0 ∧ listMaxQ nl = some 1) :=
  ⟨⟨by decide, by decide, by norm_num⟩,
    C5_normalize_range [2, 0] 0 2 (by decide) (by decide) (by norm_num)⟩

/-! ### Claim C7: determinism of the generation pipeline -/

/-- Claim C7: `WorldGenerator::generate` is a pure function of the
configuration, the mesh, the (fixed) numeric kernels and the seed: two
independent runs with the same inputs produce identical per-vertex and
per-cell heights, corner and edge flux, and temperatures — even when the two
runs observe different iteration orders of the internal `river_sources`
`HashSet` (the only order-nondeterministic container in the pipeline), which
can affect only the order of the extracted river-path list, not any of the
claimed fields. -/
theorem C7_generate_deterministic (M : Mesh) (conf : WorldGenConf) (env : NumEnv)
    (seed fuel : ℕ) (order1 order2 : List ℕ → List ℕ) :
    gen_outputs (generate M conf env seed fuel order1) =
      gen_outputs (generate M conf env seed fuel order2) := rfl

/-! ### Claim C2: descent edges and the descending-elevation order -/

theorem foldl_descent_spec (w : ℕ → ℚ) (id : ℕ) :
    ∀ (l : List ℕ) (acc : Option Slope) (s : Slope),
      l.foldl (descent_step w id) acc = some s →
      acc = some s ∨ (s.towards ∈ l ∧ w s.towards < w id) := by
  intro l
  induction l with
  | nil => exact fun acc s hs => Or.inl hs
  | cons b t ih =>
    intro acc s hs
    rw [List.foldl_cons] at hs
    have hblt : ∀ hpos : qLtB 0 (qSub (w id) (w b)) = true, w b < w id := by
      intro hpos
      have := qLtB_elim _ _ hpos
      rw [qSub_eq] at this
      linarith
    rcases ih _ s hs with hstep | ⟨hmem, hlt⟩
    · cases acc with
      | none =>
        rw [descent_step] at hstep
        by_cases hpos : qLtB 0 (qSub (w id) (w b)) = true
        · rw [if_pos hpos, Option.some_inj] at hstep
          exact Or.inr ⟨by rw [← hstep]; exact List.mem_cons_self b t,
            by rw [← hstep]; exact hblt hpos⟩
        · rw [if_neg hpos] at hstep
          exact Option.noConfusion hstep
      | some s0 =>
        rw [descent_step] at hstep
        by_cases hc : (qLtB 0 (qSub (w id) (w b)) && qLtB s0.intensity (qSub (w id) (w b))) = true
        · rw [if_pos hc, Option.some_inj] at hstep
          exact Or.inr ⟨by rw [← hstep]; exact List.mem_cons_self b t,
            by rw [← hstep]; exact hblt (Bool.and_eq_true _ _ ▸ hc).1⟩
        · rw [if_neg hc] at hstep
          exact Or.inl hstep
    · exact Or.inr ⟨List.mem_cons_of_mem b hmem, hlt⟩

theorem descent_spec (M : Mesh) (w : ℕ → ℚ) (id : ℕ) (s : Slope)
    (hs : descent_vector M w id = some s) :
    s.towards ∈ M.vertNbrs id ∧ w s.towards < w id := by
  rcases foldl_descent_spec w id (M.vertNbrs id) none s hs with hc | hc
  · exact Option.noConfusion hc
  · exact hc

theorem indexOf_lt_of_pairwise {R : ℕ → ℕ → Prop} :
    ∀ (L : List ℕ), List.Pairwise R L →
      ∀ u v, u ∈ L → v ∈ L → ¬ R v u → R u u → L.indexOf u < L.indexOf v := by
  intro L
  induction L with
  | nil => exact fun _ u v hu => absurd hu (List.not_mem_nil u)
  | cons a t ih =>
    intro hp u v hu hv hnR hRuu
    have hvu : v ≠ u := fun hc => hnR (hc ▸ hRuu)
    rcases List.pairwise_cons.mp hp with ⟨hhead, htail⟩
    by_cases hua : u = a
    · subst hua
      rw [List.indexOf_cons_self, List.indexOf_cons_ne t hvu.symm]
      exact Nat.succ_pos _
    · have hut : u ∈ t := (List.mem_cons.mp hu).resolve_left (fun hc => hua hc)
      have hva : v ≠ a := fun hc => hnR (hc ▸ hhead u hut)
      have hvt : v ∈ t := (List.mem_cons.mp hv).resolve_left (fun hc => hva hc)
      rw [List.indexOf_cons_ne t (fun hc => hua hc.symm),
        List.indexOf_cons_ne t (fun hc => hva hc.symm)]
      exact Nat.succ_lt_succ (ih htail u v hut hvt hnR hRuu)

theorem ordered_by_sorted (M : Mesh) (w : ℕ → ℚ) :
    List.Pairwise (downhill_le w) (ordered_by M w) :=
  List.sorted_insertionSort (downhill_le w) (List.range M.numVerts)

theorem ordered_by_perm (M : Mesh) (w : ℕ → ℚ) :
    (ordered_by M w).Perm (List.range M.numVerts) :=
  List.perm_insertionSort (downhill_le w) (List.range M.numVerts)

theorem descent_before_target (M : Mesh) (w : ℕ → ℚ) (hval : M.nbrsValid)
    (u v : ℕ) (hu : u < M.numVerts) (hv : v ∈ M.vertNbrs u) (hlt : w v < w u) :
    (ordered_by M w).indexOf u < (ordered_by M w).indexOf v := by
  have humem : u ∈ ordered_by M w :=
    (ordered_by_perm M w).mem_iff.mpr (List.mem_range.mpr hu)
  have hvmem : v ∈ ordered_by M w :=
    (ordered_by_perm M w).mem_iff.mpr (List.mem_range.mpr (hval u v hv))
  refine indexOf_lt_of_pairwise _ (ordered_by_sorted M w) u v humem hvmem ?_ ?_
  · intro hR
    rcases hR with hR | ⟨hR, _⟩
    · exact absurd hR (not_lt.mpr (le_of_lt hlt))
    · exact absurd hR (ne_of_lt hlt)
  · exact Or.inr ⟨rfl, le_refl u⟩

/-- Claim C2: for every descent edge recorded by `HeightMapBuilder::build`
(`descent_vector[u] = Some(Slope { towards: v, .. })`), the (depression-filled)
elevation of `u` is strictly greater than that of `v`, and `u` appears
strictly before `v` in the `downhill` order produced by `ordered_by` with the
descending-elevation comparator and id tie-break; consequently every
`(from, to)` pair replayed by `downhill_flow` strictly descends in elevation
and lists `from` before `to` — the order is a valid topological order of the
descent-edge graph. -/
theorem C2_descent_topological (M : Mesh) (fuel : ℕ) (h : ℕ → ℚ) (hval : M.nbrsValid) :
    (∀ u v d, u < M.numVerts →
      (build M fuel h).descent u = some { towards := v, intensity := d } →
      (build M fuel h).corners v < (build M fuel h).corners u ∧
      (build M fuel h).downhill.indexOf u < (build M fuel h).downhill.indexOf v) ∧
    (∀ p ∈ (build M fuel h).downhill_flow,
      (build M fuel h).corners p.2 < (build M fuel h).corners p.1 ∧
      (build M fuel h).downhill.indexOf p.1 < (build M fuel h).downhill.indexOf p.2) := by
  have hpart1 : ∀ u v d, u < M.numVerts →
      (build M fuel h).descent u = some { towards := v, intensity := d } →
      (build M fuel h).corners v < (build M fuel h).corners u ∧
      (build M fuel h).downhill.indexOf u < (build M fuel h).downhill.indexOf v := by
    intro u v d hu hdesc
    obtain ⟨hmem, hlt⟩ :=
      descent_spec M (planchon_darboux M fuel h) u { towards := v, intensity := d } hdesc
    exact ⟨hlt, descent_before_target M (planchon_darboux M fuel h) hval u v hu hmem hlt⟩
  refine ⟨hpart1, ?_⟩
  intro p hp
  rw [HeightMap.downhill_flow] at hp
  obtain ⟨u, humem, hg⟩ := List.mem_filterMap.mp hp
  obtain ⟨s, hdesc, hps⟩ := Option.map_eq_some'.mp hg
  have hu : u < M.numVerts :=
    List.mem_range.mp ((ordered_by_perm M (planchon_darboux M fuel h)).mem_iff.mp humem)
  have := hpart1 u s.towards s.intensity hu hdesc
  rw [← hps]
  exact this

/-- Witness for claim C2 on the concrete mesh with the all-zero input field:
vertex `3` descends to vertex `2`. -/
theorem C2_witness :
    (wMesh.nbrsValid ∧ 3 < wMesh.numVerts ∧
      (build wMesh 10 zeroField).descent 3 = some { towards := 2, intensity := mkRat 1 1000 }) ∧
    ((build wMesh 10 zeroField).corners 2 < (build wMesh 10 zeroField).corners 3 ∧
      (build wMesh 10 zeroField).downhill.indexOf 3 <
        (build wMesh 10 zeroField).downhill.indexOf 2) := by
  have hval : wMesh.nbrsValid := by
    intro id
    exact forall_getD wNbrs [] (fun lst => ∀ nb ∈ lst, nb < wMesh.numVerts)
      (by decide) (by simp) id
  exact ⟨⟨hval, by decide, by decide⟩,
    (C2_descent_topological wMesh 10 zeroField hval).1 3 2 (mkRat 1 1000) (by decide) (by decide)⟩

/-! ### Claim C3: conservation of flux accumulation -/

theorem updW_eq_update (f : ℕ → ℚ) (id : ℕ) (v : ℚ) :
    updW f id v = Function.update f id v := by
  funext x
  rw [updW, Function.update_apply]

theorem flow_run_cons (p : ℕ × ℕ) (rest : List (ℕ × ℕ)) (f : ℕ → ℚ) :
    flow_run (p :: rest) f = flow_run rest (updW f p.2 (qAdd (f p.2) (f p.1))) := rfl

/-- Conservation invariant of `VertexData::flow`: if the transfer pairs have
pairwise-distinct sources, all sources and targets lie in the active set `A`,
no pair is a self-loop, and no pair's target equals an *earlier* pair's source
(which is what the topological replay order guarantees), then the sum of the
final values over `A` minus the processed sources equals the sum of the
initial values over `A`. -/
theorem flow_run_conserve :
    ∀ (ps : List (ℕ × ℕ)) (A : Finset ℕ) (f : ℕ → ℚ),
      (ps.map Prod.fst).Nodup →
      (∀ p ∈ ps, p.1 ∈ A) →
      (∀ p ∈ ps, p.2 ∈ A) →
      (∀ p ∈ ps, p.1 ≠ p.2) →
      List.Pairwise (fun p q => p.1 ≠ q.2) ps →
      Finset.sum (A \ (ps.map Prod.fst).toFinset) (flow_run ps f) = Finset.sum A f := by
  intro ps
  induction ps with
  | nil =>
    intro A f _ _ _ _ _
    simp [flow_run]
  | cons p rest ih =>
    intro A f hnd hsrc htgt hne hpw
    obtain ⟨u, v⟩ := p
    rw [List.map_cons] at hnd
    rcases List.nodup_cons.mp hnd with ⟨hushape, hndrest⟩
    rcases List.pairwise_cons.mp hpw with ⟨hhead, hpwrest⟩
    have hu : u ∈ A := hsrc (u, v) (List.mem_cons_self _ _)
    have hv : v ∈ A := htgt (u, v) (List.mem_cons_self _ _)
    have huv : u ≠ v := hne (u, v) (List.mem_cons_self _ _)
    have hvA : v ∈ A.erase u := Finset.mem_erase.mpr ⟨huv.symm, hv⟩
    have key : Finset.sum (A.erase u) (updW f v (qAdd (f v) (f u))) = Finset.sum A f := by
      rw [updW_eq_update, qAdd_eq]
      rw [Finset.sum_update_of_mem hvA, Finset.sdiff_singleton_eq_erase]
      have h1 : f v + Finset.sum ((A.erase u).erase v) f = Finset.sum (A.erase u) f :=
        Finset.add_sum_erase _ f hvA
      have h2 : f u + Finset.sum (A.erase u) f = Finset.sum A f :=
        Finset.add_sum_erase _ f hu
      linarith
    have hsetS : (((u, v) :: rest).map Prod.fst).toFinset =
        insert u ((rest.map Prod.fst).toFinset) := by
      simp
    have hset : A \ insert u ((rest.map Prod.fst).toFinset) =
        (A.erase u) \ ((rest.map Prod.fst).toFinset) := by
      ext x
      simp only [Finset.mem_sdiff, Finset.mem_insert, Finset.mem_erase]
      tauto
    rw [flow_run_cons, hsetS, hset]
    rw [ih (A.erase u) _ hndrest ?_ ?_ ?_ hpwrest, key]
    · intro q hq
      exact Finset.mem_erase.mpr
        ⟨fun hc => hushape (by rw [← hc]; exact List.mem_map.mpr ⟨q, hq, rfl⟩),
          hsrc q (List.mem_cons_of_mem _ hq)⟩
    · intro q hq
      exact Finset.mem_erase.mpr
        ⟨fun hc => (hhead q hq) hc.symm, htgt q (List.mem_cons_of_mem _ hq)⟩
    · exact fun q hq => hne q (List.mem_cons_of_mem _ hq)

theorem downhill_flow_map_fst (hm : HeightMap) :
    hm.downhill_flow.map Prod.fst = hm.downhill.filter (fun u => (hm.descent u).isSome) := by
  rw [HeightMap.downhill_flow]
  suffices hgen : ∀ l : List ℕ,
      (l.filterMap (fun u => (hm.descent u).map (fun s => (u, s.towards)))).map Prod.fst =
        l.filter (fun u => (hm.descent u).isSome) from hgen _
  intro l
  induction l with
  | nil => rfl
  | cons a t ih =>
    rw [List.filterMap_cons, List.filter_cons]
    cases hda : hm.descent a with
    | none => simpa [hda] using ih
    | some s => simp [hda, ih]

theorem list_sum_range (g : ℕ → ℚ) : ∀ n, ((List.range n).map g).sum = Finset.sum (Finset.range n) g := by
  intro n
  induction n with
  | zero => rfl
  | succ m ih =>
    rw [List.range_succ, List.map_append, List.sum_append, Finset.sum_range_succ, ih]
    simp

theorem filter_map_sum_eq (p : ℕ → Bool) (f : ℕ → ℚ) (l : List ℕ) :
    ((l.filter p).map f).sum = (l.map (fun i => if p i = true then f i else 0)).sum := by
  induction l with
  | nil => rfl
  | cons a t ih =>
    rw [List.filter_cons]
    by_cases hp : p a = true
    · simp [hp, ih]
    · simp [hp, ih]

theorem qSum_filter_range (n : ℕ) (p : ℕ → Bool) (f : ℕ → ℚ) :
    qSum (((List.range n).filter p).map f) =
      Finset.sum ((Finset.range n).filter (fun v => p v = true)) f := by
  rw [qSum_eq, filter_map_sum_eq, list_sum_range, Finset.sum_filter]

theorem qSum_range (n : ℕ) (f : ℕ → ℚ) :
    qSum ((List.range n).map f) = Finset.sum (Finset.range n) f := by
  rw [qSum_eq, list_sum_range]

/-- Claim C3: flow accumulation is conservative.  After
`Hydrology::recompute`, the sum of `corner_flux` over the vertices with no
descent vector (the sinks) equals the sum of `corner_rainfall` over all
vertices: `flow` applies each `(vertex, descent target)` transfer exactly
once, and the descending-elevation replay order processes every vertex before
its descent target, so all transferred flux ends in a sink. -/
theorem C3_flux_conservation (M : Mesh) (fuel : ℕ) (h rain : ℕ → ℚ)
    (terrain : ℕ → TerrainType) (minF : ℚ) (order : List ℕ → List ℕ)
    (hval : M.nbrsValid) :
    qSum (((List.range M.numVerts).filter
        (fun v => ((build M fuel h).descent v).isNone)).map
      (hydrology_recompute M (build M fuel h) rain terrain minF order).cornerFlux) =
    qSum ((List.range M.numVerts).map rain) := by
  have hcf : (hydrology_recompute M (build M fuel h) rain terrain minF order).cornerFlux =
      flow_run (build M fuel h).downhill_flow rain := rfl
  have hw : (build M fuel h).corners = planchon_darboux M fuel h := rfl
  have hdh : (build M fuel h).downhill = ordered_by M (planchon_darboux M fuel h) := rfl
  have hperm := ordered_by_perm M (planchon_darboux M fuel h)
  have hdhnodup : (build M fuel h).downhill.Nodup := by
    rw [hdh]
    exact hperm.symm.nodup (List.nodup_range M.numVerts)
  have hmemrange : ∀ x, x ∈ (build M fuel h).downhill ↔ x < M.numVerts := by
    intro x
    rw [hdh, hperm.mem_iff, List.mem_range]
  -- facts about the pair list
  have hfst := downhill_flow_map_fst (build M fuel h)
  have hndfst : ((build M fuel h).downhill_flow.map Prod.fst).Nodup := by
    rw [hfst]
    exact hdhnodup.filter _
  have hpair : ∀ p ∈ (build M fuel h).downhill_flow,
      p.1 < M.numVerts ∧ p.2 ∈ M.vertNbrs p.1 ∧
        planchon_darboux M fuel h p.2 < planchon_darboux M fuel h p.1 := by
    intro p hp
    rw [HeightMap.downhill_flow] at hp
    obtain ⟨a, hamem, hg⟩ := List.mem_filterMap.mp hp
    obtain ⟨s, hdesc, hps⟩ := Option.map_eq_some'.mp hg
    obtain ⟨hnb, hlt⟩ := descent_spec M (planchon_darboux M fuel h) a s hdesc
    rw [← hps]
    exact ⟨(hmemrange a).mp hamem, hnb, hlt⟩
  have hpw : List.Pairwise (fun p q : ℕ × ℕ => p.1 ≠ q.2) (build M fuel h).downhill_flow := by
    rw [HeightMap.downhill_flow]
    refine List.Pairwise.filterMap _ ?_ (ordered_by_sorted M (planchon_darboux M fuel h))
    intro a b hab pa hpa pb hpb
    obtain ⟨sa, hda, hpa2⟩ := Option.map_eq_some'.mp hpa
    obtain ⟨sb, hdb, hpb2⟩ := Option.map_eq_some'.mp hpb
    obtain ⟨-, hltb⟩ := descent_spec M (planchon_darboux M fuel h) b sb hdb
    rw [← hpa2, ← hpb2]
    intro hc
    simp only at hc
    have hba : planchon_darboux M fuel h b ≤ planchon_darboux M fuel h a := by
      rcases hab with hab | ⟨hab, -⟩
      · exact le_of_lt hab
      · exact le_of_eq hab.symm
    rw [hc] at hba
    exact absurd (lt_of_lt_of_le hltb hba) (lt_irrefl _)
  -- the sink set is the active set minus the sources
  have hsinkset : (Finset.range M.numVerts).filter
      (fun v => ((build M fuel h).descent v).isNone = true) =
      Finset.range M.numVerts \ ((build M fuel h).downhill_flow.map Prod.fst).toFinset := by
    ext x
    rw [hfst]
    simp only [Finset.mem_filter, Finset.mem_sdiff, Finset.mem_range, List.mem_toFinset,
      List.mem_filter]
    constructor
    · rintro ⟨hx, hnone⟩
      refine ⟨hx, ?_⟩
      rintro ⟨-, hsome⟩
      rw [Option.isNone_iff_eq_none] at hnone
      rw [hnone] at hsome
      simp at hsome
    · rintro ⟨hx, hns⟩
      refine ⟨hx, ?_⟩
      cases hd : (build M fuel h).descent x with
      | none => rfl
      | some s => exact absurd ⟨(hmemrange x).mpr hx, by rw [hd]; rfl⟩ hns
  rw [hcf, qSum_filter_range, qSum_range, hsinkset]
  exact flow_run_conserve (build M fuel h).downhill_flow (Finset.range M.numVerts) rain
    hndfst
    (fun p hp => Finset.mem_range.mpr (hpair p hp).1)
    (fun p hp => Finset.mem_range.mpr (hval p.1 p.2 (hpair p hp).2.1))
    (fun p hp => fun hc => absurd ((hpair p hp).2.2) (hc ▸ lt_irrefl _))
    hpw

/-- Witness for claim C3 on the concrete mesh with the all-zero height field
and rainfall `[1, 2, 3, 4, 5, 6]`. -/
theorem C3_witness :
    wMesh.nbrsValid ∧
    qSum (((List.range wMesh.numVerts).filter
        (fun v => ((build wMesh 10 zeroField).descent v).isNone)).map
      (hydrology_recompute wMesh (build wMesh 10 zeroField) wRain (fun _ => .Land) 1
        idOrder).cornerFlux) =
    qSum ((List.range wMesh.numVerts).map wRain) := by
  have hval : wMesh.nbrsValid := by
    intro id
    exact forall_getD wNbrs [] (fun lst => ∀ nb ∈ lst, nb < wMesh.numVerts)
      (by decide) (by simp) id
  exact ⟨hval,
    C3_flux_conservation wMesh 10 zeroField wRain (fun _ => .Land) 1 idOrder hval⟩

/-! ### Claim C1: descent chains after depression filling

`planchon_darboux` compares working values against the fixed sentinel
`100.0`; when input heights come within `epsilon` of the sentinel, an interior
plateau can survive the fixed point still holding the sentinel value, with no
strictly lower neighbor — the counterexample below.  Away from that corner
case (amended claim: no interior vertex is stuck at the sentinel in the filled
field) every interior vertex has a strictly descending neighbor, and the
descent chain strictly decreases elevation, so it reaches a border vertex. -/

/-- Counterexample to claim C1 as stated: on the concrete mesh with border
heights `99.9985` (within `epsilon` of the `100.0` sentinel) and interior
heights `0`, the depression-filling loop exits (a full sweep changes
nothing), yet interior vertex `4` ends with no descent vector: its working
value and those of all its neighbors are stuck at the sentinel `100`, so the
descent chain from vertex `4` stops immediately at a non-border vertex. -/
theorem C1_counterexample :
    pd_fixed wMesh 10 cexHeights = true ∧
    wMesh.vertBorder 4 = false ∧
    (build wMesh 10 cexHeights).descent 4 = none ∧
    (build wMesh 10 cexHeights).corners 4 = 100 := by
  refine ⟨by decide, by decide, by decide, by decide⟩

theorem pdEps_pos : (0 : ℚ) < pdEps := by
  rw [pdEps, mkRat_eq_div]
  norm_num

theorem updW_self (w : ℕ → ℚ) (id : ℕ) (v : ℚ) : updW w id v id = v := by
  rw [updW, if_pos rfl]

theorem updW_ne (w : ℕ → ℚ) (id : ℕ) (v : ℚ) (x : ℕ) (hx : x ≠ id) :
    updW w id v x = w x := by
  rw [updW, if_neg hx]

theorem pd_inv_rule1 (M : Mesh) (h : ℕ → ℚ) (id : ℕ) (hidb : M.vertBorder id = false)
    (w : ℕ → ℚ) (hinv : pd_inv M h w) (nb : ℕ) (hnb : nb ∈ M.vertNbrs id)
    (hcond : w nb + pdEps ≤ h id) :
    pd_inv M h (updW w id (h id)) ∧ (∀ x, updW w id (h id) x ≤ w x) ∧
      (∀ x, x ≠ id → updW w id (h id) x = w x) := by
  obtain ⟨hb, hge, hlive, hrel⟩ := hinv
  have hnbid : nb ≠ id := by
    intro hc
    rw [hc] at hcond
    have := hge id
    have := pdEps_pos
    linarith
  have hdec : ∀ x, updW w id (h id) x ≤ w x := by
    intro x
    by_cases hx : x = id
    · rw [hx, updW_self]; exact hge id
    · rw [updW_ne w id _ x hx]
  refine ⟨⟨?_, ?_, ?_, ?_⟩, hdec, fun x hx => updW_ne w id _ x hx⟩
  · intro i hbi
    have hii : i ≠ id := fun hc => by rw [hc, hidb] at hbi; exact Bool.noConfusion hbi
    rw [updW_ne w id _ i hii]
    exact hb i hbi
  · intro i
    by_cases hx : i = id
    · rw [hx, updW_self]
    · rw [updW_ne w id _ i hx]; exact hge i
  · intro i hbi hne h100
    by_cases hx : i = id
    · rw [hx, updW_self] at hne
      exact absurd rfl hne
    · rw [updW_ne w id _ i hx] at hne h100 ⊢
      obtain ⟨nb2, hnb2, hle2⟩ := hlive i hbi hne h100
      exact ⟨nb2, hnb2, le_trans (add_le_add_right (hdec nb2) pdEps) hle2⟩
  · intro i hbi heq
    by_cases hx : i = id
    · rw [hx, updW_self]
      refine ⟨nb, hnb, ?_⟩
      rw [updW_ne w id _ nb hnbid]
      exact hcond
    · rw [updW_ne w id _ i hx] at heq ⊢
      obtain ⟨nb2, hnb2, hle2⟩ := hrel i hbi heq
      exact ⟨nb2, hnb2, le_trans (add_le_add_right (hdec nb2) pdEps) hle2⟩

theorem pd_inv_rule2 (M : Mesh) (h : ℕ → ℚ) (id : ℕ) (hidb : M.vertBorder id = false)
    (w : ℕ → ℚ) (hinv : pd_inv M h w) (nb : ℕ) (hnb : nb ∈ M.vertNbrs id)
    (hlt : w nb + pdEps < w id) (hgt : h id < w nb + pdEps) :
    pd_inv M h (updW w id (w nb + pdEps)) ∧ (∀ x, updW w id (w nb + pdEps) x ≤ w x) ∧
      (∀ x, x ≠ id → updW w id (w nb + pdEps) x = w x) := by
  obtain ⟨hb, hge, hlive, hrel⟩ := hinv
  have hnbid : nb ≠ id := by
    intro hc
    rw [hc] at hlt
    have := pdEps_pos
    linarith
  have hdec : ∀ x, updW w id (w nb + pdEps) x ≤ w x := by
    intro x
    by_cases hx : x = id
    · rw [hx, updW_self]; exact le_of_lt hlt
    · rw [updW_ne w id _ x hx]
  refine ⟨⟨?_, ?_, ?_, ?_⟩, hdec, fun x hx => updW_ne w id _ x hx⟩
  · intro i hbi
    have hii : i ≠ id := fun hc => by rw [hc, hidb] at hbi; exact Bool.noConfusion hbi
    rw [updW_ne w id _ i hii]
    exact hb i hbi
  · intro i
    by_cases hx : i = id
    · rw [hx, updW_self]; exact le_of_lt hgt
    · rw [updW_ne w id _ i hx]; exact hge i
  · intro i hbi hne h100
    by_cases hx : i = id
    · rw [hx, updW_self]
      refine ⟨nb, hnb, ?_⟩
      rw [updW_ne w id _ nb hnbid]
    · rw [updW_ne w id _ i hx] at hne h100 ⊢
      obtain ⟨nb2, hnb2, hle2⟩ := hlive i hbi hne h100
      exact ⟨nb2, hnb2, le_trans (add_le_add_right (hdec nb2) pdEps) hle2⟩
  · intro i hbi heq
    by_cases hx : i = id
    · rw [hx, updW_self] at heq
      rw [hx] at hbi
      exact absurd heq.symm (ne_of_lt hgt)
    · rw [updW_ne w id _ i hx] at heq ⊢
      obtain ⟨nb2, hnb2, hle2⟩ := hrel i hbi heq
      exact ⟨nb2, hnb2, le_trans (add_le_add_right (hdec nb2) pdEps) hle2⟩

theorem pd_go_preserves (M : Mesh) (h : ℕ → ℚ) (id : ℕ) (hidb : M.vertBorder id = false) :
    ∀ (l : List ℕ) (w : ℕ → ℚ), (∀ nb ∈ l, nb ∈ M.vertNbrs id) → pd_inv M h w →
      pd_inv M h (pd_go h id w l).1 ∧ (∀ x, (pd_go h id w l).1 x ≤ w x) := by
  intro l
  induction l with
  | nil => exact fun w _ hinv => ⟨hinv, fun x => le_refl _⟩
  | cons nb t ih =>
    intro w hsub hinv
    have hnb : nb ∈ M.vertNbrs id := hsub nb (List.mem_cons_self nb t)
    rw [pd_go]
    by_cases hc1 : qLeB (qAdd (w nb) pdEps) (h id) = true
    · rw [if_pos hc1]
      have hcond : w nb + pdEps ≤ h id := by
        have := qLeB_elim _ _ hc1
        rw [qAdd_eq] at this
        exact this
      obtain ⟨hinv2, hdec, -⟩ := pd_inv_rule1 M h id hidb w hinv nb hnb hcond
      exact ⟨hinv2, hdec⟩
    · rw [if_neg hc1]
      by_cases hc2 : (qLtB (qAdd (w nb) pdEps) (w id) && qLtB (h id) (qAdd (w nb) pdEps)) = true
      · rw [if_pos hc2]
        obtain ⟨hb1, hb2⟩ := Bool.and_eq_true _ _ ▸ hc2
        have hlt : w nb + pdEps < w id := by
          have := qLtB_elim _ _ hb1
          rw [qAdd_eq] at this
          exact this
        have hgt : h id < w nb + pdEps := by
          have := qLtB_elim _ _ hb2
          rw [qAdd_eq] at this
          exact this
        obtain ⟨hinv2, hdec2, -⟩ := pd_inv_rule2 M h id hidb w hinv nb hnb hlt hgt
        have hqa : updW w id (qAdd (w nb) pdEps) = updW w id (w nb + pdEps) := by
          rw [qAdd_eq]
        rw [hqa]
        obtain ⟨hinv3, hdec3⟩ := ih (updW w id (w nb + pdEps))
          (fun x hx => hsub x (List.mem_cons_of_mem nb hx)) hinv2
        exact ⟨hinv3, fun x => le_trans (hdec3 x) (hdec2 x)⟩
      · rw [if_neg hc2]
        exact ih w (fun x hx => hsub x (List.mem_cons_of_mem nb hx)) hinv

theorem pd_sweep_preserves (M : Mesh) (h : ℕ → ℚ) :
    ∀ (ids : List ℕ) (w : ℕ → ℚ), pd_inv M h w →
      pd_inv M h (pd_sweep M h w ids).1 ∧ (∀ x, (pd_sweep M h w ids).1 x ≤ w x) := by
  intro ids
  induction ids with
  | nil => exact fun w hinv => ⟨hinv, fun x => le_refl _⟩
  | cons id rest ih =>
    intro w hinv
    rw [pd_sweep]
    by_cases hskip : qEqB (w id) (h id) = true
    · rw [if_pos hskip]
      exact ih w hinv
    · rw [if_neg hskip]
      have hne : w id ≠ h id := fun hc => hskip ((qEqB_iff _ _).mpr hc)
      have hidb : M.vertBorder id = false := by
        cases hbi : M.vertBorder id with
        | false => rfl
        | true => exact absurd (hinv.1 id hbi) hne
      obtain ⟨hinv1, hdec1⟩ :=
        pd_go_preserves M h id hidb (M.vertNbrs id) w (fun x hx => hx) hinv
      obtain ⟨hinv2, hdec2⟩ := ih (pd_go h id w (M.vertNbrs id)).1 hinv1
      exact ⟨hinv2, fun x => le_trans (hdec2 x) (hdec1 x)⟩

theorem pd_init_inv (M : Mesh) (h : ℕ → ℚ) (hh : ∀ id, h id < 100) :
    pd_inv M h (pd_init M h) := by
  refine ⟨?_, ?_, ?_, ?_⟩
  · intro id hbi
    rw [pd_init, if_pos hbi]
  · intro id
    rw [pd_init]
    by_cases hbi : M.vertBorder id
    · rw [if_pos hbi]
    · rw [if_neg hbi]
      exact le_of_lt (hh id)
  · intro id hbi hne h100
    rw [pd_init, if_neg (by rw [hbi]; exact Bool.false_ne_true)] at h100
    exact absurd rfl h100
  · intro id hbi heq
    rw [pd_init, if_neg (by rw [hbi]; exact Bool.false_ne_true)] at heq
    exact absurd heq.symm (ne_of_lt (hh id))

theorem pd_loop_inv (M : Mesh) (h : ℕ → ℚ) :
    ∀ (fuel : ℕ) (w : ℕ → ℚ), pd_inv M h w → pd_inv M h (pd_loop M h fuel w).1 := by
  intro fuel
  induction fuel with
  | zero => exact fun w hinv => hinv
  | succ n ih =>
    intro w hinv
    rw [pd_loop]
    by_cases hc : (pd_sweep M h w (List.range M.numVerts)).2 = true
    · rw [if_pos hc]
      exact ih _ (pd_sweep_preserves M h (List.range M.numVerts) w hinv).1
    · rw [if_neg hc]
      exact (pd_sweep_preserves M h (List.range M.numVerts) w hinv).1

theorem pd_go_false (M : Mesh) (h : ℕ → ℚ) (id : ℕ) :
    ∀ (l : List ℕ) (w : ℕ → ℚ), (pd_go h id w l).2 = false →
      (pd_go h id w l).1 = w ∧
        ∀ nb ∈ l, ¬ (w nb + pdEps ≤ h id) ∧ ¬ (w nb + pdEps < w id ∧ h id < w nb + pdEps) := by
  intro l
  induction l with
  | nil => exact fun w _ => ⟨rfl, fun nb hnb => absurd hnb (List.not_mem_nil nb)⟩
  | cons nb t ih =>
    intro w hfalse
    rw [pd_go] at hfalse ⊢
    by_cases hc1 : qLeB (qAdd (w nb) pdEps) (h id) = true
    · rw [if_pos hc1] at hfalse
      exact Bool.noConfusion hfalse
    · rw [if_neg hc1] at hfalse ⊢
      by_cases hc2 : (qLtB (qAdd (w nb) pdEps) (w id) && qLtB (h id) (qAdd (w nb) pdEps)) = true
      · rw [if_pos hc2] at hfalse
        exact Bool.noConfusion hfalse
      · rw [if_neg hc2] at hfalse ⊢
        obtain ⟨heq, hrest⟩ := ih w hfalse
        have hr1 : ¬ (w nb + pdEps ≤ h id) := by
          intro hcon
          exact hc1 ((qLeB_iff _ _).mpr (by rw [qAdd_eq]; exact hcon))
        have hr2 : ¬ (w nb + pdEps < w id ∧ h id < w nb + pdEps) := by
          rintro ⟨ha, hb⟩
          refine hc2 ?_
          rw [Bool.and_eq_true]
          exact ⟨(qLtB_iff _ _).mpr (by rw [qAdd_eq]; exact ha),
            (qLtB_iff _ _).mpr (by rw [qAdd_eq]; exact hb)⟩
        refine ⟨heq, fun x hx => ?_⟩
        rcases List.mem_cons.mp hx with rfl | hx
        · exact ⟨hr1, hr2⟩
        · exact hrest x hx

theorem pd_sweep_false (M : Mesh) (h : ℕ → ℚ) :
    ∀ (ids : List ℕ) (w : ℕ → ℚ), (pd_sweep M h w ids).2 = false →
      (pd_sweep M h w ids).1 = w ∧
        ∀ id ∈ ids, w id ≠ h id →
          ∀ nb ∈ M.vertNbrs id,
            ¬ (w nb + pdEps ≤ h id) ∧ ¬ (w nb + pdEps < w id ∧ h id < w nb + pdEps) := by
  intro ids
  induction ids with
  | nil => exact fun w _ => ⟨rfl, fun id hid => absurd hid (List.not_mem_nil id)⟩
  | cons id rest ih =>
    intro w hfalse
    rw [pd_sweep] at hfalse ⊢
    by_cases hskip : qEqB (w id) (h id) = true
    · rw [if_pos hskip] at hfalse ⊢
      obtain ⟨heq, hrest⟩ := ih w hfalse
      refine ⟨heq, fun x hx hnex => ?_⟩
      rcases List.mem_cons.mp hx with rfl | hx
      · exact absurd ((qEqB_iff _ _).mp hskip) hnex
      · exact hrest x hx hnex
    · rw [if_neg hskip] at hfalse ⊢
      dsimp only at hfalse ⊢
      rw [Bool.or_eq_false_iff] at hfalse
      obtain ⟨hgo, hsw⟩ := hfalse
      obtain ⟨hgoeq, hgocond⟩ := pd_go_false M h id (M.vertNbrs id) w hgo
      rw [hgoeq] at hsw ⊢
      obtain ⟨hsweq, hswcond⟩ := ih w hsw
      refine ⟨hsweq, fun x hx hnex => ?_⟩
      rcases List.mem_cons.mp hx with rfl | hx
      · exact fun nb hnb => hgocond nb hnb
      · exact hswcond x hx hnex

theorem pd_loop_fixed (M : Mesh) (h : ℕ → ℚ) :
    ∀ (fuel : ℕ) (w : ℕ → ℚ), (pd_loop M h fuel w).2 = true →
      pd_no_fire M h (pd_loop M h fuel w).1 := by
  intro fuel
  induction fuel with
  | zero => exact fun w hc => Bool.noConfusion hc
  | succ n ih =>
    intro w hfix
    rw [pd_loop] at hfix ⊢
    by_cases hc : (pd_sweep M h w (List.range M.numVerts)).2 = true
    · rw [if_pos hc] at hfix ⊢
      exact ih _ hfix
    · rw [if_neg hc] at hfix ⊢
      obtain ⟨hsweq, hswcond⟩ :=
        pd_sweep_false M h (List.range M.numVerts) w (Bool.not_eq_true _ ▸ hc)
      rw [hsweq]
      intro i hi hnei nb hnb
      exact hswcond i (List.mem_range.mpr hi) hnei nb hnb

theorem pd_fix_has_lower (M : Mesh) (h w : ℕ → ℚ) (hinv : pd_inv M h w)
    (hnf : pd_no_fire M h w) (id : ℕ) (hid : id < M.numVerts)
    (hidb : M.vertBorder id = false) (h100 : w id ≠ 100) :
    ∃ nb ∈ M.vertNbrs id, w nb < w id := by
  by_cases heq : w id = h id
  · obtain ⟨nb, hnb, hle⟩ := hinv.2.2.2 id hidb heq
    exact ⟨nb, hnb, by have := pdEps_pos; linarith⟩
  · obtain ⟨nb, hnb, hle⟩ := hinv.2.2.1 id hidb heq h100
    exact ⟨nb, hnb, by have := pdEps_pos; linarith⟩

theorem descent_step_some (w : ℕ → ℚ) (id : ℕ) (s : Slope) (nb : ℕ) :
    ∃ s2, descent_step w id (some s) nb = some s2 := by
  rw [descent_step]
  by_cases hc : (qLtB 0 (qSub (w id) (w nb)) && qLtB s.intensity (qSub (w id) (w nb))) = true
  · rw [if_pos hc]
    exact ⟨_, rfl⟩
  · rw [if_neg hc]
    exact ⟨s, rfl⟩

theorem foldl_descent_some (w : ℕ → ℚ) (id : ℕ) :
    ∀ (l : List ℕ) (acc : Option Slope),
      ((∃ s, acc = some s) ∨ ∃ nb ∈ l, w nb < w id) →
      ∃ s, l.foldl (descent_step w id) acc = some s := by
  intro l
  induction l with
  | nil =>
    intro acc hc
    rcases hc with hs | ⟨nb, hnb, -⟩
    · exact hs
    · exact absurd hnb (List.not_mem_nil nb)
  | cons b t ih =>
    intro acc hc
    rw [List.foldl_cons]
    rcases hc with ⟨s, rfl⟩ | ⟨nb, hnb, hlow⟩
    · obtain ⟨s2, hs2⟩ := descent_step_some w id s b
      exact ih _ (Or.inl (by rw [hs2]; exact ⟨s2, rfl⟩))
    · rcases List.mem_cons.mp hnb with rfl | hnbt
      · cases acc with
        | some s => exact ih _ (Or.inl ((descent_step_some w id s nb).imp (fun s2 hs2 => by rw [hs2])))
        | none =>
          have hpos : qLtB 0 (qSub (w id) (w nb)) = true :=
            (qLtB_iff _ _).mpr (by rw [qSub_eq]; linarith)
          rw [descent_step, if_pos hpos]
          exact ih _ (Or.inl ⟨_, rfl⟩)
      · cases acc with
        | some s => exact ih _ (Or.inl ((descent_step_some w id s b).imp (fun s2 hs2 => by rw [hs2])))
        | none => exact ih _ (Or.inr ⟨nb, hnbt, hlow⟩)

theorem descent_vector_isSome (M : Mesh) (w : ℕ → ℚ) (id : ℕ)
    (hex : ∃ nb ∈ M.vertNbrs id, w nb < w id) :
    ∃ s, descent_vector M w id = some s :=
  foldl_descent_some w id (M.vertNbrs id) none (Or.inr hex)

/-- The descent chain argument: if every interior vertex in range has a
strictly lower neighbor, then from every vertex the chain of descent targets
(strictly decreasing in elevation, hence visiting pairwise distinct vertices)
reaches a vertex with no descent vector, which must be a border vertex. -/
theorem chain_reaches_border (M : Mesh) (w : ℕ → ℚ) (hm : HeightMap)
    (hdescent : hm.descent = descent_vector M w) (hval : M.nbrsValid)
    (hlow : ∀ id, id < M.numVerts → M.vertBorder id = false →
      ∃ nb ∈ M.vertNbrs id, w nb < w id) :
    ∀ id, id < M.numVerts →
      ∃ k b, iterD hm k id = some b ∧ M.vertBorder b = true ∧ hm.stepD b = none := by
  have main : ∀ n id, ((Finset.range M.numVerts).filter (fun v => w v < w id)).card ≤ n →
      id < M.numVerts →
      ∃ k b, iterD hm k id = some b ∧ M.vertBorder b = true ∧ hm.stepD b = none := by
    intro n
    induction n with
    | zero =>
      intro id hcard hid
      cases hstep : hm.stepD id with
      | none =>
        cases hbi : M.vertBorder id with
        | true => exact ⟨0, id, rfl, hbi, hstep⟩
        | false =>
          obtain ⟨s, hs⟩ := descent_vector_isSome M w id (hlow id hid hbi)
          rw [HeightMap.stepD, hdescent, hs] at hstep
          exact Option.noConfusion hstep
      | some t =>
        rw [HeightMap.stepD, hdescent] at hstep
        obtain ⟨s, hs, hts⟩ := Option.map_eq_some'.mp hstep
        obtain ⟨hnb, hlt⟩ := descent_spec M w id s hs
        have htmem : t ∈ (Finset.range M.numVerts).filter (fun v => w v < w id) := by
          rw [Finset.mem_filter, Finset.mem_range]
          rw [← hts]
          exact ⟨hval id s.towards hnb, hlt⟩
        have : 0 < ((Finset.range M.numVerts).filter (fun v => w v < w id)).card :=
          Finset.card_pos.mpr ⟨t, htmem⟩
        omega
    | succ n ih =>
      intro id hcard hid
      cases hstep : hm.stepD id with
      | none =>
        cases hbi : M.vertBorder id with
        | true => exact ⟨0, id, rfl, hbi, hstep⟩
        | false =>
          obtain ⟨s, hs⟩ := descent_vector_isSome M w id (hlow id hid hbi)
          rw [HeightMap.stepD, hdescent, hs] at hstep
          exact Option.noConfusion hstep
      | some t =>
        rw [HeightMap.stepD, hdescent] at hstep
        obtain ⟨s, hs, hts⟩ := Option.map_eq_some'.mp hstep
        obtain ⟨hnb, hlt⟩ := descent_spec M w id s hs
        have hts2 : w t < w id := by rw [← hts]; exact hlt
        have htid : t < M.numVerts := by rw [← hts]; exact hval id s.towards hnb
        have hss : (Finset.range M.numVerts).filter (fun v => w v < w t) ⊂
            (Finset.range M.numVerts).filter (fun v => w v < w id) := by
          refine Finset.ssubset_iff_of_subset ?_ |>.mpr ?_
          · intro v hv
            rw [Finset.mem_filter] at hv ⊢
            exact ⟨hv.1, lt_trans hv.2 hts2⟩
          · refine ⟨t, ?_, ?_⟩
            · rw [Finset.mem_filter, Finset.mem_range]
              exact ⟨htid, hts2⟩
            · rw [Finset.mem_filter]
              rintro ⟨-, hcon⟩
              exact absurd hcon (lt_irrefl _)
        have hcard2 : ((Finset.range M.numVerts).filter (fun v => w v < w t)).card ≤ n := by
          have := Finset.card_lt_card hss
          omega
        obtain ⟨k, b, hiter, hbb, hsb⟩ := ih t hcard2 htid
        refine ⟨k + 1, b, ?_, hbb, hsb⟩
        rw [iterD, HeightMap.stepD, hdescent, hs]
        simp only [Option.map_some']
        rw [hts]
        exact hiter
  intro id hid
  exact main _ id (le_refl _) hid

/-- Claim C1, amended: after `HeightMapBuilder::build` (whose depression
filling ran to its fixed point within the fuel), if all input heights are
below the `100.0` sentinel and no interior vertex's *filled* elevation is
stuck at the sentinel, then from every non-border vertex the chain of descent
vectors is finite and terminates at a border vertex (the chain strictly
descends in elevation, so it cannot cycle, and under the sentinel condition no
interior vertex lacks a descent vector).  The counterexample shows the
sentinel condition cannot be dropped. -/
theorem C1_descent_to_border (M : Mesh) (fuel : ℕ) (h : ℕ → ℚ)
    (hval : M.nbrsValid) (hh : ∀ id, h id < 100)
    (hfix : pd_fixed M fuel h = true)
    (h100 : ∀ id, id < M.numVerts → M.vertBorder id = false →
      (build M fuel h).corners id ≠ 100) :
    ∀ id, id < M.numVerts → M.vertBorder id = false →
      ∃ k b, iterD (build M fuel h) k id = some b ∧ M.vertBorder b = true ∧
        (build M fuel h).stepD b = none := by
  have hinv : pd_inv M h (planchon_darboux M fuel h) :=
    pd_loop_inv M h fuel (pd_init M h) (pd_init_inv M h hh)
  have hnf : pd_no_fire M h (planchon_darboux M fuel h) :=
    pd_loop_fixed M h fuel (pd_init M h) hfix
  have hlow : ∀ id, id < M.numVerts → M.vertBorder id = false →
      ∃ nb ∈ M.vertNbrs id, planchon_darboux M fuel h nb < planchon_darboux M fuel h id :=
    fun id hid hidb =>
      pd_fix_has_lower M h (planchon_darboux M fuel h) hinv hnf id hid hidb
        (h100 id hid hidb)
  intro id hid _
  exact chain_reaches_border M (planchon_darboux M fuel h) (build M fuel h) rfl hval hlow id hid

/-- Witness for claim C1 on the concrete mesh with the all-zero input field:
the chain from interior vertex `5` reaches border vertex `0`. -/
theorem C1_witness :
    (wMesh.nbrsValid ∧ (∀ id, zeroField id < 100) ∧
      pd_fixed wMesh 10 zeroField = true ∧
      (∀ id, id < wMesh.numVerts → wMesh.vertBorder id = false →
        (build wMesh 10 zeroField).corners id ≠ 100) ∧
      5 < wMesh.numVerts ∧ wMesh.vertBorder 5 = false) ∧
    (∃ k b, iterD (build wMesh 10 zeroField) k 5 = some b ∧ wMesh.vertBorder b = true ∧
      (build wMesh 10 zeroField).stepD b = none) := by
  have hval : wMesh.nbrsValid := by
    intro id
    exact forall_getD wNbrs [] (fun lst => ∀ nb ∈ lst, nb < wMesh.numVerts)
      (by decide) (by simp) id
  have hh : ∀ id, zeroField id < 100 := fun id => by rw [zeroField]; norm_num
  have h100 : ∀ id, id < wMesh.numVerts → wMesh.vertBorder id = false →
      (build wMesh 10 zeroField).corners id ≠ 100 := by decide
  exact ⟨⟨hval, hh, by decide, h100, by decide, by decide⟩,
    C1_descent_to_border wMesh 10 zeroField hval hh (by decide) h100 5 (by decide) (by decide)⟩

end WorldGen
